import Mathlib

/-!
Verification of the FST (file-system table) core of the `gcmod` repository.

The Rust source is shallowly embedded: machine integers (`u64`, `u32`, `usize`)
become `Nat` (all the arithmetic below stays far from 2^64 on the inputs the
claims quantify over; the 24-bit truncation of `filename_offset`, the one place
where the width is semantically load-bearing, is modelled explicitly through
the byte encoding), fallible operations return `Option`/`Except`, and the
three-way outcome of a Rust call that can also panic is modelled by `Outcome`
(`ok`/`ioError`/`panicked`), distinguishing a propagated `io::Error` from an
aborting `panic!`/`expect`/`copy_from_slice` length-mismatch.

Entries are polymorphic in the name type `σ`: the byte-level decoder
(`FST.new`) produces names as raw byte lists (`List Nat`), mirroring the bytes
read from the string table (Rust then applies `String::from_utf8_lossy`, a
total function, so keeping the bytes loses nothing the claims need), while the
path-resolution and rebuilder models use `σ := String`.
-/

namespace Gcmod

/-- `ENTRY_SIZE` from src/sections/fst/entry.rs. -/
def ENTRY_SIZE : Nat := 12

/-- `DEFAULT_ALIGNMENT` from src/lib.rs (32 KiB). -/
def DEFAULT_ALIGNMENT : Nat := 32 * 1024

/-- `MIN_ALIGNMENT` from src/lib.rs. -/
def MIN_ALIGNMENT : Nat := 4

/-- `ROM_SIZE` from src/rom_rebuilder.rs. -/
def ROM_SIZE : Nat := 0x57058000

/-- Modelled from the spec: `APPLOADER_OFFSET` is declared in
src/sections/apploader.rs, which is absent from src/ (only its users are
present).  The spec treats the apploader as "a fixed bootstrap binary blob
preceding the FST" at a fixed offset; the concrete value is immaterial to
every claim (it only enters the placement base as an additive constant). -/
def APPLOADER_OFFSET : Nat := 0x2440

/-- `align` from src/lib.rs: round `n` up to the next multiple of `m`. -/
def align (n m : Nat) : Nat :=
  ((n / m) + (if n % m = 0 then 0 else 1)) * m

/-- Three-valued outcome of a Rust computation: normal result, a propagated
`io::Error` (returned to the caller), or an aborting panic. -/
inductive Outcome (α : Type) where
  | ok (val : α)
  | ioError
  | panicked
deriving DecidableEq, Repr

def Outcome.isOk {α : Type} : Outcome α → Bool
  | .ok _ => true
  | _ => false

def Outcome.map {α β : Type} (f : α → β) : Outcome α → Outcome β
  | .ok a => .ok (f a)
  | .ioError => .ioError
  | .panicked => .panicked

/-- `EntryInfo` from src/sections/fst/entry.rs.  `full_path` (a `PathBuf` in
the source) is modelled as the list of component names from the root down. -/
structure EntryInfo (σ : Type) where
  index : Nat
  name : σ
  filename_offset : Nat
  directory_index : Option Nat
  full_path : List σ
deriving DecidableEq, Repr

/-- `Entry` from src/sections/fst/entry.rs: `File { info, file_offset, size }`
or `Directory { info, parent_index, next_index, file_count }`. -/
inductive Entry (σ : Type) where
  | file (info : EntryInfo σ) (file_offset : Nat) (size : Nat)
  | directory (info : EntryInfo σ) (parent_index : Nat) (next_index : Nat)
      (file_count : Nat)
deriving DecidableEq, Repr

namespace Entry

def info {σ : Type} : Entry σ → EntryInfo σ
  | .file i _ _ => i
  | .directory i _ _ _ => i

def setName {σ : Type} : Entry σ → σ → Entry σ
  | .file i o s, n => .file { i with name := n } o s
  | .directory i p nx c, n => .directory { i with name := n } p nx c

def setFullPath {σ : Type} : Entry σ → List σ → Entry σ
  | .file i o s, p => .file { i with full_path := p } o s
  | .directory i pi nx c, p => .directory { i with full_path := p } pi nx c

def is_dir {σ : Type} : Entry σ → Bool
  | .directory _ _ _ _ => true
  | _ => false

def is_file {σ : Type} : Entry σ → Bool
  | .file _ _ _ => true
  | _ => false

end Entry

/-- Big-endian 24-bit read of bytes 1..4 of a record
(`read_u24::<BigEndian>` in `Entry::new`). -/
def readU24 (b1 b2 b3 : Nat) : Nat := b1 * 2 ^ 16 + b2 * 2 ^ 8 + b3

/-- Big-endian 32-bit read (`read_u32::<BigEndian>` in `Entry::new`). -/
def readU32 (b1 b2 b3 b4 : Nat) : Nat :=
  b1 * 2 ^ 24 + b2 * 2 ^ 16 + b3 * 2 ^ 8 + b4

/-- `Entry::new` from src/sections/fst/entry.rs: decode one 12-byte record.
Callers always pass exactly `ENTRY_SIZE` bytes (obtained via `read_exact`),
so the `getD` defaults are never exercised.  Tag byte 0 is a File (fields
`file_offset`, `size`), 1 a Directory (fields `parent_index`, `next_index`,
with `file_count` initialised to 0), anything else an
`io::Error(InvalidData)`. -/
def Entry.new (entry : List Nat) (index : Nat) (directory_index : Option Nat) :
    Except String (Entry (List Nat)) :=
  let filename_offset := readU24 (entry.getD 1 0) (entry.getD 2 0) (entry.getD 3 0)
  let f2 := readU32 (entry.getD 4 0) (entry.getD 5 0) (entry.getD 6 0) (entry.getD 7 0)
  let f3 := readU32 (entry.getD 8 0) (entry.getD 9 0) (entry.getD 10 0) (entry.getD 11 0)
  let i : EntryInfo (List Nat) :=
    { index := index, name := [], filename_offset := filename_offset,
      directory_index := directory_index, full_path := [] }
  match entry.getD 0 0 with
  | 0 => .ok (.file i f2 f3)
  | 1 => .ok (.directory i f2 f3 0)
  | _ => .error "Invalid byte in entry"

/-- The big-endian byte expansion of a `u64` (`u64::to_be_bytes`). -/
def u64BeBytes (n : Nat) : List Nat :=
  [n / 2 ^ 56 % 256, n / 2 ^ 48 % 256, n / 2 ^ 40 % 256, n / 2 ^ 32 % 256,
   n / 2 ^ 24 % 256, n / 2 ^ 16 % 256, n / 2 ^ 8 % 256, n % 256]

/-- `write_int_to_buffer` from src/sections/fst/entry.rs:
`buf.copy_from_slice(&num.to_be_bytes())`.  `num.to_be_bytes()` for a `u64` is
always 8 bytes, and `copy_from_slice` panics unless source and destination
have equal length, so the call only succeeds on an 8-byte destination slice.
`none` models the panic. -/
def write_int_to_buffer (num : Nat) (bufLen : Nat) : Option (List Nat) :=
  if bufLen = 8 then some (u64BeBytes num) else none

/-- `Entry::write` from src/sections/fst/entry.rs: serialise one entry into a
12-byte record.  The tag byte is set from the variant, then
`write_int_to_buffer` is called on `buf[1..4]` (3 bytes), `buf[4..8]` and
`buf[8..12]` (4 bytes each); `none` models the panic from the length
mismatch inside `copy_from_slice`, which happens before any byte reaches the
output writer. -/
def Entry.write {σ : Type} (e : Entry σ) : Option (List Nat) := do
  let tag : Nat := if e.is_dir then 1 else 0
  let b1 ← write_int_to_buffer e.info.filename_offset 3
  let (f2, f3) :=
    match e with
    | .file _ o s => (o, s)
    | .directory _ p n _ => (p, n)
  let b2 ← write_int_to_buffer f2 4
  let b3 ← write_int_to_buffer f3 4
  pure (tag :: (b1 ++ b2 ++ b3))

/-- `FST` from src/sections/fst/mod.rs. -/
structure FST (σ : Type) where
  offset : Nat
  file_count : Nat
  total_file_system_size : Nat
  entries : List (Entry σ)
  size : Nat
deriving DecidableEq, Repr

/-- Insertion into the `BTreeMap<u64, &String>` of `FST::write`: the map is
kept sorted by key and an insert with an existing key replaces the value. -/
def insertSorted (m : List (Nat × List Nat)) (k : Nat) (v : List Nat) :
    List (Nat × List Nat) :=
  match m with
  | [] => [(k, v)]
  | (k0, v0) :: rest =>
    if k < k0 then (k, v) :: (k0, v0) :: rest
    else if k = k0 then (k, v) :: rest
    else (k0, v0) :: insertSorted rest k v

/-- The per-entry loop of `FST::write`: write each record, collecting the
names keyed by `filename_offset`. -/
def writeEntriesLoop :
    List (Entry (List Nat)) → List (Nat × List Nat) →
    Option (List Nat × List (Nat × List Nat))
  | [], m => some ([], m)
  | e :: rest, m =>
    match e.write with
    | none => none
    | some bytes =>
      match writeEntriesLoop rest (insertSorted m e.info.filename_offset e.info.name) with
      | none => none
      | some (out, m2) => some (bytes ++ out, m2)

/-- `FST::write` from src/sections/fst/mod.rs: all 12-byte records in order,
then the string table in ascending `filename_offset` order, each name
null-terminated.  `none` models a panic inside `Entry::write`. -/
def FST.write (f : FST (List Nat)) : Option (List Nat) :=
  match writeEntriesLoop f.entries [] with
  | none => none
  | some (out, m) => some (out ++ (m.map (fun kv => kv.2 ++ [0])).flatten)

/-- `read_exact` on `iso.take(ENTRY_SIZE)`: `n` bytes at position `pos` of the
backing buffer, or an `io::Error` (modelled `none`) when fewer are
available. -/
def readBytesAt (data : List Nat) (pos n : Nat) : Option (List Nat) :=
  if pos + n ≤ data.length then some ((data.drop pos).take n) else none

/-- State of the record-reading loop of `FST::new`: the entries read so far,
the stack of open directories (head = top; each frame is
`(parent_index, next_index, immediate-child counter)` as in the source
comment), and the two running totals. -/
structure ReadState where
  entries : List (Entry (List Nat))
  parents : List (Nat × Nat × Nat)
  file_count : Nat
  total_file_system_size : Nat
deriving DecidableEq, Repr

/-- `entries[i].as_dir_mut().unwrap().file_count = count` from `FST::new`:
`none` models the `unwrap` panic on a non-Directory entry (never reached:
frames are only pushed for directories). -/
def setDirFileCount (entries : List (Entry (List Nat))) (i cnt : Nat) :
    Option (List (Entry (List Nat))) :=
  match entries.get? i with
  | some (.directory info p nx _) => some (entries.set i (.directory info p nx cnt))
  | _ => none

/-- The pop-loop at the head of each `FST::new` iteration: pop every stack
frame whose recorded `next_index` equals the index about to be consumed and
commit its child counter into that directory's `file_count`. -/
def popParents (entries : List (Entry (List Nat)))
    (parents : List (Nat × Nat × Nat)) (index : Nat) :
    Outcome (List (Entry (List Nat)) × List (Nat × Nat × Nat)) :=
  match parents with
  | [] => .ok (entries, [])
  | (pi, pnext, pcount) :: rest =>
    if pnext = index then
      match setDirFileCount entries pi pcount with
      | some entries2 => popParents entries2 rest index
      | none => .panicked
    else .ok (entries, parents)

/-- `if let Some(p) = parents.last_mut() { p.2 += 1 }`. -/
def bumpTopCount : List (Nat × Nat × Nat) → List (Nat × Nat × Nat)
  | [] => []
  | (pi, pnext, pcount) :: rest => (pi, pnext, pcount + 1) :: rest

/-- The body of `for index in 1..entry_count` in `FST::new`, recursing on the
remaining iteration count (`index = entry_count - fuel`). -/
def readLoop (data : List Nat) (offset : Nat) :
    Nat → Nat → ReadState → Outcome ReadState
  | _, 0, st => .ok st
  | index, fuel + 1, st =>
    match popParents st.entries st.parents index with
    | .panicked => .panicked
    | .ioError => .ioError
    | .ok (entries, parents) =>
      let parents := bumpTopCount parents
      match readBytesAt data (offset + ENTRY_SIZE * index) ENTRY_SIZE with
      | none => .ioError
      | some buf =>
        match Entry.new buf index (parents.head?.map (fun f => f.1)) with
        | .error _ => .ioError
        | .ok entry =>
          let st2 : ReadState :=
            match entry with
            | .file _ _ size =>
              { entries := entries ++ [entry], parents := parents,
                file_count := st.file_count + 1,
                total_file_system_size := st.total_file_system_size + size }
            | .directory _ _ next_index _ =>
              { entries := entries ++ [entry],
                parents := (index, next_index, 0) :: parents,
                file_count := st.file_count,
                total_file_system_size := st.total_file_system_size }
          readLoop data offset (index + 1) fuel st2

/-- `reader.read_until(0, &mut bytes)` starting at `pos`: the bytes up to and
including the first null byte, or everything to end-of-buffer when no null
occurs (reaching EOF is not an error); returns the bytes together with the
new stream position. -/
def read_until_zero (data : List Nat) (pos : Nat) : List Nat × Nat :=
  let rest := data.drop pos
  let pre := rest.takeWhile (fun b => b ≠ 0)
  if pre.length < rest.length then (pre ++ [0], pos + pre.length + 1)
  else (pre, pos + pre.length)

/-- `Entry::read_filename` from src/sections/fst/entry.rs.  The root (index 0)
gets the path separator as its name without touching the stream; any other
entry seeks to `str_tbl_addr + filename_offset`, reads up to and including
the next null byte, drops the final byte (`bytes.pop()`), and a directory
gets the separator appended.  Rust then applies `String::from_utf8_lossy`,
which is total (it never fails, lossily replacing invalid sequences); the
model keeps the raw bytes.  Returns the entry with its name set and the new
stream position. -/
def Entry.read_filename (e : Entry (List Nat)) (data : List Nat)
    (str_tbl_addr pos : Nat) : Entry (List Nat) × Nat :=
  if e.info.index = 0 then (e.setName [47], pos)
  else
    let (bytes, pos2) := read_until_zero data (str_tbl_addr + e.info.filename_offset)
    let name := bytes.dropLast
    let name := if e.is_dir then name ++ [47] else name
    (e.setName name, pos2)

/-- The filename pass of `FST::new`: `read_filename` on every entry in order,
tracking the running stream position and the maximum position reached
(`end`). -/
def readFilenamesLoop (data : List Nat) (str_tbl_addr : Nat) :
    List (Entry (List Nat)) → Nat → Nat →
    List (Entry (List Nat)) × Nat × Nat
  | [], pos, endv => ([], pos, endv)
  | e :: rest, pos, endv =>
    let (e2, pos2) := e.read_filename data str_tbl_addr pos
    let endv2 := max pos2 endv
    let (rest2, pos3, endv3) := readFilenamesLoop data str_tbl_addr rest pos2 endv2
    (e2 :: rest2, pos3, endv3)

/-- `FST::get_full_path`: walk `directory_index` up to the root collecting
names, root first.  The chain strictly decreases by construction
(`directory_index` always points to an earlier entry), so fuel
`entries.length` always suffices. -/
def get_full_path {σ : Type} (entries : List (Entry σ)) :
    Nat → Entry σ → List σ
  | 0, e => [e.info.name]
  | fuel + 1, e =>
    match e.info.directory_index with
    | none => [e.info.name]
    | some p =>
      match entries.get? p with
      | none => [e.info.name]
      | some parent => get_full_path entries fuel parent ++ [e.info.name]

/-- `FST::new` from src/sections/fst/mod.rs, over an in-memory byte buffer.
Note the two `expect` calls on the root record: a root that fails to decode
(invalid tag) or is not a directory causes a panic, not a propagated error.
After the record loop the still-open stack frames are discarded without
committing their child counters (`parents` is dropped), the string table is
read, `size` is computed from the maximum stream position, and full paths
are filled in. -/
def FST.new (data : List Nat) (offset : Nat) : Outcome (FST (List Nat)) :=
  match readBytesAt data offset ENTRY_SIZE with
  | none => .ioError
  | some buf =>
    match Entry.new buf 0 none with
    | .error _ => .panicked
    | .ok root =>
      match root with
      | .file _ _ _ => .panicked
      | .directory _ _ entry_count _ =>
        match readLoop data offset 1 (entry_count - 1)
            { entries := [root], parents := [(0, entry_count, 0)],
              file_count := 0, total_file_system_size := 0 } with
        | .panicked => .panicked
        | .ioError => .ioError
        | .ok st =>
          match readFilenamesLoop data
              (offset + ENTRY_SIZE + ENTRY_SIZE * (entry_count - 1)) st.entries
              (offset + ENTRY_SIZE + ENTRY_SIZE * (entry_count - 1)) 0 with
          | (entries, _, endv) =>
            .ok { offset := offset, file_count := st.file_count,
                  total_file_system_size := st.total_file_system_size,
                  entries := entries.map (fun e =>
                    e.setFullPath (get_full_path entries entries.length e)),
                  size := endv - offset }

/-! ## Directory iteration (`DirectoryIter` in src/sections/fst/entry.rs) -/

/-- `isDirAt entries i` holds when the entry at position `i` is a Directory. -/
def isDirAt {σ : Type} (entries : List (Entry σ)) (i : Nat) : Bool :=
  match entries.get? i with
  | some (.directory _ _ _ _) => true
  | _ => false

/-- The `next_index` of the Directory at position `i` (0 otherwise). -/
def nextAt {σ : Type} (entries : List (Entry σ)) (i : Nat) : Nat :=
  match entries.get? i with
  | some (.directory _ _ n _) => n
  | _ => 0

/-- The `directory_index` recorded at position `i`. -/
def dirIdxAt {σ : Type} (entries : List (Entry σ)) (i : Nat) : Option Nat :=
  match entries.get? i with
  | some e => e.info.directory_index
  | none => none

/-- The `info.index` field recorded at position `i`. -/
def indexAt {σ : Type} (entries : List (Entry σ)) (i : Nat) : Nat :=
  match entries.get? i with
  | some e => e.info.index
  | none => 0

/-- Number of flat-array slots occupied by the subtree rooted at position `i`:
1 for a File, `next_index - i` for a Directory (its whole recursive range). -/
def subtreeSize {σ : Type} (entries : List (Entry σ)) (i : Nat) : Nat :=
  match entries.get? i with
  | some (.file _ _ _) => 1
  | some (.directory _ _ n _) => n - i
  | none => 0

/-- `DirectoryIter::next` iterated to exhaustion, yielding the positions it
visits.  At cursor `c < next_index` the entry at `c` is yielded and the
cursor advances by 1 for a File or by `child.next_index - c` for a Directory
(`usize` subtraction; on malformed data the Rust iterator would panic or
loop forever — both are modelled by fuel exhaustion, `none`).  Once the
cursor reaches `next_index` the iterator is exhausted. -/
def dirIterAux {σ : Type} (entries : List (Entry σ)) (next_index : Nat) :
    Nat → Nat → Option (List Nat)
  | 0, _ => none
  | fuel + 1, cursor =>
    if cursor < next_index then
      match entries.get? cursor with
      | none => none
      | some (.file _ _ _) =>
        match dirIterAux entries next_index fuel (cursor + 1) with
        | none => none
        | some rest => some (cursor :: rest)
      | some (.directory _ _ n _) =>
        match dirIterAux entries next_index fuel (cursor + (n - cursor)) with
        | none => none
        | some rest => some (cursor :: rest)
    else some []

/-- `DirectoryEntry::iter_contents`: the sequence of positions yielded for the
directory with index `index` and next index `next_index`, starting at
`index + 1`.  Fuel `entries.length + 1` always suffices on well-formed
trees. -/
def iter_contents {σ : Type} (entries : List (Entry σ)) (index next_index : Nat) :
    Option (List Nat) :=
  dirIterAux entries next_index (entries.length + 1) (index + 1)

/-- The data-model invariants of a decoded/rebuilt FST (spec section 3):
entry 0 is the root Directory with `next_index = entries.len()` and no
parent; every entry records its own position in `info.index`; every
Directory's range `(d, next_index]` is a well-delimited block inside the
table; directory ranges nest (the recursive-descendants ranges of two
directories are disjoint or contained, expressed by: a directory `q` lying
inside `p`'s range has its whole range inside); and every non-root entry's
`directory_index` names the innermost enclosing directory (the containing
directory with the largest index). -/
def LaminarAt {σ : Type} (entries : List (Entry σ)) (p : Nat) : Prop :=
  ∀ q, q < entries.length → isDirAt entries q = true →
    p < q → q < nextAt entries p → nextAt entries q ≤ nextAt entries p

instance {σ : Type} (entries : List (Entry σ)) (p : Nat) :
    Decidable (LaminarAt entries p) := by
  unfold LaminarAt
  infer_instance

def InnermostOf {σ : Type} (entries : List (Entry σ)) (i : Nat) : Prop :=
  ∃ p, p < entries.length ∧ dirIdxAt entries i = some p ∧
    isDirAt entries p = true ∧ p < i ∧ i < nextAt entries p ∧
    (∀ q, q < entries.length → isDirAt entries q = true →
      q < i → i < nextAt entries q → q ≤ p)

instance {σ : Type} (entries : List (Entry σ)) (i : Nat) :
    Decidable (InnermostOf entries i) := by
  unfold InnermostOf
  infer_instance

def WellFormed {σ : Type} (entries : List (Entry σ)) : Prop :=
  isDirAt entries 0 = true ∧
  nextAt entries 0 = entries.length ∧
  dirIdxAt entries 0 = none ∧
  (∀ i, i < entries.length → indexAt entries i = i) ∧
  (∀ i, i < entries.length → isDirAt entries i = true →
    i < nextAt entries i ∧ nextAt entries i ≤ entries.length) ∧
  (∀ p, p < entries.length → isDirAt entries p = true → LaminarAt entries p) ∧
  (∀ i, i < entries.length → 0 < i → InnermostOf entries i)

/-! ## Path resolution (`FST::entry_for_path` in src/sections/fst/mod.rs) -/

/-- `dir.iter_contents(fst).find(|e| &e.info().name[..] == name)`: the first
immediate child whose name equals the path component. -/
def findInChildren (entries : List (Entry String)) (d_index d_next : Nat)
    (name : String) : Option Nat :=
  (iter_contents entries d_index d_next).bind
    (fun l => l.find? (fun i =>
      match entries.get? i with
      | some e => e.info.name = name
      | none => false))

/-- The multi-component (absolute path) branch of `FST::entry_for_path`:
`path.iter().skip(1).try_fold(&self.entries[0], ...)` — descend from the
root, requiring each component to name an immediate child of the current
directory, failing (`none`) as soon as the current entry is not a directory
or the component is not found. -/
def entry_for_path_abs (entries : List (Entry String)) (components : List String) :
    Option Nat :=
  components.foldlM
    (fun cur comp =>
      match entries.get? cur with
      | some (.directory _ _ next _) => findInChildren entries cur next comp
      | _ => none)
    0

/-- The depth-first search `FST::entry_with_name` runs over a list of child
positions: a child whose name matches wins; otherwise a directory child is
searched recursively before moving on.  `fuel` bounds recursion depth
(`entries.length` always suffices: directories strictly nest). -/
def entry_with_name_go (entries : List (Entry String)) (name : String) :
    Nat → List Nat → Option Nat
  | _, [] => none
  | fuel, i :: rest =>
    match entries.get? i with
    | none => entry_with_name_go entries name fuel rest
    | some e =>
      if e.info.name = name then some i
      else
        let sub : Option Nat :=
          match e, fuel with
          | .directory _ _ next _, fuel2 + 1 =>
            (iter_contents entries i next).bind
              (fun l => entry_with_name_go entries name fuel2 l)
          | _, _ => none
        match sub with
        | some r => some r
        | none => entry_with_name_go entries name fuel rest
  termination_by fuel l => (fuel, l.length)

/-- `FST::entry_with_name` called on the root (the single-bare-name branch of
`entry_for_path`). -/
def entry_with_name (entries : List (Entry String)) (name : String) : Option Nat :=
  match entries.get? 0 with
  | some (.directory _ _ next _) =>
    (iter_contents entries 0 next).bind
      (entry_with_name_go entries name entries.length)
  | _ => none

/-- `FST::entry_for_path`: a relative path is treated as one bare filename and
looked up by depth-first search over the whole tree; an absolute path is
resolved component by component from the root (`components` are the
normalised components after `path.iter().skip(1)`, i.e. with the root
separator dropped). -/
def entry_for_path (entries : List (Entry String)) (absolute : Bool)
    (components : List String) : Option Nat :=
  if absolute then entry_for_path_abs entries components
  else entry_with_name entries (String.intercalate "/" components)

/-- `Path` component normalisation applied by Rust's `PathBuf` iteration to a
stored full path: the leading root name is dropped by `.skip(1)` and every
other name loses a trailing separator (directory names are stored with one
appended by `read_filename`; `Path::iter` yields components without it).
Valid whenever the names themselves contain no internal separator. -/
def queryComponents (full_path_names : List String) : List String :=
  (full_path_names.drop 1).map
    (fun s => if s.data.getLast? = some (Char.ofNat 47)
              then String.mk s.data.dropLast else s)

/-! ## FST rebuilder (src/rom_rebuilder.rs) -/

/-- A host directory tree as the traversal sees it: `read_dir` yields the
children in some platform order; that order is the list order here (the
spec documents this nondeterminism, section 4.3 step 2). -/
inductive HostNode where
  | file (name : String) (size : Nat)
  | dir (name : String) (children : List HostNode)

/-- `FSTRebuilder::is_file_ignored`: `name.starts_with('.') ||
name == "&&systemdata"` (the character-pattern `starts_with` tests the first
character, expressed here on the character list so the kernel can evaluate
it). -/
def is_file_ignored (name : String) : Bool :=
  (match name.data with
   | c :: _ => c = '.'
   | [] => false) || name = "&&systemdata"

/-- `FSTRebuilderInfo` from src/rom_rebuilder.rs. -/
structure RbInfo where
  entries : List (Entry String)
  file_system_size : Nat
  filename_offset : Nat
  file_count : Nat
  parent_index : Option Nat
  current_path : List String
  alignment : Nat
deriving DecidableEq, Repr

/-- `FSTRebuilderInfo::add_entry`: a File entry advances the running
file-system byte counter by its size rounded up to the alignment and bumps
the file counter; every entry is appended. -/
def RbInfo.add_entry (rb : RbInfo) (e : Entry String) : RbInfo :=
  let rb :=
    match e with
    | .file _ _ size =>
      { rb with
        file_system_size := rb.file_system_size + align size rb.alignment,
        file_count := rb.file_count + 1 }
    | _ => rb
  { rb with entries := rb.entries ++ [e] }

/-- `rb_info.entries[dir_index].as_dir_mut().unwrap()` followed by the two
field writes in `rebuild_dir_info`.  The `unwrap` panic is unreachable: the
entry at `dir_index` is the directory pushed by this very call. -/
def patchDir (rb : RbInfo) (dir_index fc nx : Nat) : RbInfo :=
  match rb.entries.get? dir_index with
  | some (.directory info p _ _) =>
    { rb with entries := rb.entries.set dir_index (.directory info p nx fc) }
  | _ => rb

mutual

/-- `FSTRebuilder::rebuild_dir_info`: push the directory entry, walk its host
children, then patch the directory's `file_count` (immediate children
added) and `next_index` (its index + total entries added + 1). -/
def rebuild_dir_info (dirE : Entry String) (children : List HostNode)
    (rb : RbInfo) : RbInfo :=
  let old_parent := rb.parent_index
  let dir_index := dirE.info.index
  let rb := { rb with
    current_path := rb.current_path ++ [dirE.info.name],
    parent_index := some dir_index }
  let rb := rb.add_entry dirE
  let previous_entry_count := rb.entries.length
  let (rb, immediate_children_added) := add_entries_in_directory children rb
  let total_entries_added := rb.entries.length - previous_entry_count
  let rb := { rb with
    current_path := rb.current_path.dropLast,
    parent_index := old_parent }
  patchDir rb dir_index immediate_children_added
    (dir_index + total_entries_added + 1)
  termination_by (sizeOf children, 1)

/-- `FSTRebuilder::add_entries_in_directory`: walk the host children in
order, skipping ignored names; build each child's `EntryInfo` (sequential
index, running `filename_offset` advanced by `name.chars().count() + 1`),
recurse into subdirectories, give files their tentative `file_offset` (the
running file-system counter); returns the updated accumulator and the
number of immediate children added. -/
def add_entries_in_directory (children : List HostNode) (rb : RbInfo) :
    RbInfo × Nat :=
  match children with
  | [] => (rb, 0)
  | child :: rest =>
    let name := match child with | .file n _ => n | .dir n _ => n
    if is_file_ignored name then add_entries_in_directory rest rb
    else
      let info : EntryInfo String :=
        { index := rb.entries.length, name := name,
          filename_offset := rb.filename_offset,
          directory_index := rb.parent_index,
          full_path := rb.current_path ++ [name] }
      let rb := { rb with filename_offset := rb.filename_offset + name.length + 1 }
      let rb :=
        match child with
        | .dir _ sub =>
          let parent_index := info.directory_index.getD 0
          rebuild_dir_info (.directory info parent_index 0 0) sub rb
        | .file _ size =>
          rb.add_entry (.file info rb.file_system_size size)
      let (rb, n) := add_entries_in_directory rest rb
      (rb, n + 1)
  termination_by (sizeOf children, 0)

end

/-- The synthetic root Directory entry seeded by `FSTRebuilder::rebuild`. -/
def rebuildRootEntry : Entry String :=
  .directory
    { index := 0, name := "/", filename_offset := 0,
      directory_index := none, full_path := ["/"] } 0 0 0

/-- `FSTRebuilder::rebuild` (the pure placement part): walk the host tree
from the synthetic root, compute the table size, the table offset, the DOL
offset and the file-system content base (each boundary rounded up to the
alignment), then shift every file's tentative offset by that single base.
Returns the rebuilt FST together with `dol_offset` and the file-system base
offset. -/
def FSTRebuilder.rebuild (root_children : List HostNode)
    (alignment apploader_size dol_size : Nat) : FST String × Nat × Nat :=
  let rb0 : RbInfo :=
    { entries := [], file_system_size := 0, filename_offset := 0,
      file_count := 0, parent_index := none, current_path := [],
      alignment := alignment }
  let rb := rebuild_dir_info rebuildRootEntry root_children rb0
  let size := rb.entries.length * 12 + rb.filename_offset
  let offset := align (APPLOADER_OFFSET + apploader_size) alignment
  let dol_offset := align (offset + size) alignment
  let file_system_offset := align (dol_offset + dol_size) alignment
  let entries := rb.entries.map (fun e =>
    match e with
    | .file i o sz => .file i (o + file_system_offset) sz
    | d => d)
  ({ offset := offset, file_count := rb.file_count,
     total_file_system_size := rb.file_system_size,
     entries := entries, size := size }, dol_offset, file_system_offset)

/-! ## Layout index (src/sections/section.rs, src/game.rs) -/

/-- A section as the Layout Index sees it: `(start_offset, byte_length)`. -/
structure Sec where
  start : Nat
  size : Nat
deriving DecidableEq, Repr

instance : Inhabited Sec := ⟨⟨0, 0⟩⟩

/-- `Section::end`: `start + size - 1` (`u64` arithmetic; for a zero-size
section at offset 0 the Rust expression underflows — the theorems therefore
require every section to be non-empty). -/
def Sec.endOff (s : Sec) : Nat := s.start + s.size - 1

/-- `Section::compare_offset`: Less when the query is past the section's end,
Greater when before its start, Equal otherwise. -/
def compare_offset (s : Sec) (offset : Nat) : Ordering :=
  if s.endOff < offset then .lt
  else if s.start > offset then .gt
  else .eq

/-- Rust's `slice::binary_search_by` loop on index range `[left, right)`:
probe the middle, narrow to the half that can still hold an `Equal`
element, and answer `some mid` on `Equal` (the `Err` insertion point is
collapsed to `none`, which is all `ROMLayout::find_offset` keeps of it). -/
def binary_search_go (f : Nat → Ordering) (left right : Nat) : Option Nat :=
  if _h : left < right then
    match f (left + (right - left) / 2) with
    | .lt => binary_search_go f (left + (right - left) / 2 + 1) right
    | .gt => binary_search_go f left (left + (right - left) / 2)
    | .eq => some (left + (right - left) / 2)
  else none
  termination_by right - left
  decreasing_by
  · omega
  · have : 0 < right - left := by omega
    omega

/-- `ROMLayout::find_offset`: binary search over the sorted section list with
`compare_offset`, returning the owning section or `none`. -/
def find_offset (layout : List Sec) (offset : Nat) : Option Sec :=
  (binary_search_go (fun i => compare_offset (layout.getD i default) offset)
      0 layout.length).bind
    (fun i => layout.get? i)

/-- Membership of an offset in a section's byte range `[start, start+size)`. -/
def containsOff (s : Sec) (x : Nat) : Prop := s.start ≤ x ∧ x < s.start + s.size

instance (s : Sec) (x : Nat) : Decidable (containsOff s x) := by
  unfold containsOff; infer_instance

/-! ## Image writer (`ROMRebuilder::write`, src/rom_rebuilder.rs) -/

/-- `write_zeros`: the chunked loop emits exactly `n` zero bytes (the
`WRITE_CHUNK_SIZE` chunking only bounds peak memory). -/
def write_zeros (n : Nat) : List Nat := List.replicate n 0

/-- Result of `ROMRebuilder::write`: the emitted image on success, the
capacity error (carrying the alignment value named in its message — the
source formats `DEFAULT_ALIGNMENT` into it) or a panic. -/
inductive WriteResult where
  | ok (out : List Nat)
  | capacityError (alignment : Nat)
  | panicked
deriving DecidableEq, Repr

/-- The loop of `ROMRebuilder::write` over the sorted `(offset, content)`
pairs: a zero-size file is skipped entirely; otherwise the gap up to the
file's offset is zero-filled (the `u64` subtraction `offset - bytes_written`
panics when the cursor is already past the offset), the content is copied
and the cursor checked against `ROM_SIZE` — exceeding it aborts with the
capacity error naming `DEFAULT_ALIGNMENT`.  After the last file the
remainder up to `ROM_SIZE` is zero-filled. -/
def ROMRebuilder.writeGo : List (Nat × List Nat) → Nat → List Nat → WriteResult
  | [], bytes_written, acc => .ok (acc ++ write_zeros (ROM_SIZE - bytes_written))
  | (offset, content) :: rest, bytes_written, acc =>
    if content.length = 0 then ROMRebuilder.writeGo rest bytes_written acc
    else if offset < bytes_written then .panicked
    else if ROM_SIZE < offset + content.length then .capacityError DEFAULT_ALIGNMENT
    else ROMRebuilder.writeGo rest (offset + content.length)
        (acc ++ write_zeros (offset - bytes_written) ++ content)

/-- `ROMRebuilder::write` on the placement plan (file contents inlined). -/
def ROMRebuilder.write (files : List (Nat × List Nat)) : WriteResult :=
  ROMRebuilder.writeGo files 0 []

/-! ## Derived counting helpers (spec-facing measures) -/

/-- Number of File-tagged entries. -/
def countFiles {σ : Type} (entries : List (Entry σ)) : Nat :=
  (entries.filter (fun e => e.is_file)).length

/-- Sum of the raw, unaligned `size` fields of the File entries. -/
def sumFileSizes {σ : Type} (entries : List (Entry σ)) : Nat :=
  (entries.map (fun e => match e with | .file _ _ s => s | _ => 0)).sum

/-- Sum of the File sizes each rounded up to alignment `a`. -/
def sumAlignedFileSizes {σ : Type} (a : Nat) (entries : List (Entry σ)) : Nat :=
  (entries.map (fun e => match e with | .file _ _ s => align s a | _ => 0)).sum

/-- The `(file_offset, size)` pairs of the File entries, in entry order. -/
def filesOf {σ : Type} (entries : List (Entry σ)) : List (Nat × Nat) :=
  entries.filterMap (fun e => match e with | .file _ o s => some (o, s) | _ => none)

/-- The `file_count` field of the Directory at position `i`. -/
def fileCountAt {σ : Type} (entries : List (Entry σ)) (i : Nat) : Option Nat :=
  match entries.get? i with
  | some (.directory _ _ _ fc) => some fc
  | _ => none

/-- Number of entries whose `directory_index` is `some d` (the immediate
children of the directory at position `d`). -/
def countChildren {σ : Type} (entries : List (Entry σ)) (d : Nat) : Nat :=
  (entries.filter (fun e => e.info.directory_index = some d)).length

/-! ## C1, C2 — the entry codec's write path -/

/-- `Entry::write` panics on every entry: its very first `write_int_to_buffer`
call targets the 3-byte slice `buf[1..4]` with an 8-byte source. -/
theorem entry_write_eq_none {σ : Type} (e : Entry σ) : e.write = none := by
  simp [Entry.write, write_int_to_buffer]

/-- A 12-byte record that decodes fine (a File with all fields zero). -/
def c1Bytes : List Nat := [0, 0, 0, 0, 0, 0, 0, 0, 0, 0, 0, 0]

/-- The entry `Entry::new` produces from `c1Bytes` at index 1 inside
directory 0. -/
def c1Entry : Entry (List Nat) :=
  .file { index := 1, name := [], filename_offset := 0,
          directory_index := some 0, full_path := [] } 0 0

/-- C1: the codec round trip is impossible as implemented.  `Entry::new`
decodes the validly-encoded record `c1Bytes`, but `Entry::write` on the
decoded entry panics (`write_int_to_buffer` copies the 8-byte `u64`
big-endian representation into the 3-byte slice `buf[1..4]` and
`copy_from_slice` panics on the length mismatch), so re-encoding can never
reproduce the record bytes, and `decode(encode(T))` is equally unrealisable
because `encode` never returns. -/
theorem c1_roundtrip_write_panics :
    Entry.new c1Bytes 1 (some 0) = .ok c1Entry ∧ c1Entry.write = none := by
  constructor
  · rfl
  · exact entry_write_eq_none c1Entry

/-- C2: `Entry::write` panics before producing any output for every entry
(File and Directory alike), and consequently `FST::write` never emits a
serialized table for any FST with at least one entry. -/
theorem c2_entry_write_always_panics :
    (∀ (σ : Type) (e : Entry σ), e.write = none) ∧
    (∀ f : FST (List Nat), f.entries ≠ [] → f.write = none) := by
  refine ⟨fun σ e => entry_write_eq_none e, fun f hne => ?_⟩
  unfold FST.write
  cases h : f.entries with
  | nil => exact absurd h hne
  | cons e rest => simp [writeEntriesLoop, entry_write_eq_none]

/-- A one-entry FST (just a root directory). -/
def c2Fst : FST (List Nat) :=
  { offset := 0, file_count := 0, total_file_system_size := 0,
    entries := [.directory { index := 0, name := [47], filename_offset := 0,
                             directory_index := none, full_path := [[47]] } 0 1 0],
    size := 12 }

/-- Witness for C2 at a concrete one-entry FST. -/
theorem c2_entry_write_always_panics_witness : c2Fst.write = none :=
  c2_entry_write_always_panics.2 c2Fst (by decide)

/-! ## C4 — decoded `file_count` of still-open directories -/

/-- A validly-encoded two-entry table: root directory (`next_index` 2)
containing one file of size 5, then the string table `"a\0"`. -/
def c4Bytes : List Nat :=
  [1, 0, 0, 0, 0, 0, 0, 0, 0, 0, 0, 2] ++
  [0, 0, 0, 0, 0, 0, 0, 0, 0, 0, 0, 5] ++
  [97, 0]

/-- C4: after decoding `c4Bytes`, the root directory has one immediate child
(the file at index 1 records `directory_index == Some(0)`), yet its
`file_count` is still 0: the decode loop only commits a stack frame's child
counter when some later index equals the frame's `next_index`, and the
frames still open when the loop ends — always including the root — are
dropped uncommitted, leaving the initial 0 from `Entry::new`. -/
theorem c4_root_file_count_left_zero :
    (FST.new c4Bytes 0).map
        (fun f => (f.entries.length, fileCountAt f.entries 0,
                   countChildren f.entries 0)) =
      .ok (2, some 0, 1) := by decide

/-! ## C3 — path resolution round trip -/

/-- A decoded three-entry FST: root, a subdirectory (decoded name `"sub/"` —
`read_filename` appends the separator to directory names), and a file
`"b.txt"` inside it.  `full_path` fields are exactly what
`FST::get_full_path` computes. -/
def c3Entries : List (Entry String) :=
  [ .directory { index := 0, name := "/", filename_offset := 0,
                 directory_index := none, full_path := ["/"] } 0 3 0,
    .directory { index := 1, name := "sub/", filename_offset := 0,
                 directory_index := some 0, full_path := ["/", "sub/"] } 0 3 0,
    .file { index := 2, name := "b.txt", filename_offset := 4,
            directory_index := some 1, full_path := ["/", "sub/", "b.txt"] } 0 3 ]

/-- C3: `entry_for_path` does not invert `full_path`.  The file at index 2
has full path `/sub/b.txt`; the path iterator yields components
`["sub", "b.txt"]`, but the descend loop compares the component `"sub"`
against the stored directory name `"sub/"` (separator appended at decode
time), never matches, and returns `None` instead of the entry. -/
theorem c3_entry_for_path_misses_nested_file :
    queryComponents ["/", "sub/", "b.txt"] = ["sub", "b.txt"] ∧
    (c3Entries.get? 2).map (fun e => e.info.full_path) =
      some ["/", "sub/", "b.txt"] ∧
    entry_for_path c3Entries true (queryComponents ["/", "sub/", "b.txt"]) =
      none := by decide

/-! ## Counterexamples for C5, C7, C9 -/

/-- C5 counterexample: rebuilding a host tree holding a single 5-byte file
with alignment 32 stores 32 — the alignment-rounded size accumulated by
`FSTRebuilderInfo::add_entry` — into `total_file_system_size`, not the raw
sum 5 the claim requires. -/
theorem c5_rebuild_total_size_is_aligned :
    (FSTRebuilder.rebuild [HostNode.file "a.txt" 5] 32 0 0).1.total_file_system_size
      = 32 ∧ (32 : Nat) ≠ 5 := by
  constructor
  · simp [FSTRebuilder.rebuild, rebuild_dir_info, add_entries_in_directory,
      is_file_ignored, RbInfo.add_entry, rebuildRootEntry, patchDir, align,
      Entry.info]
  · decide

/-- A table whose root record carries tag byte 2. -/
def c7Bytes : List Nat := [2, 0, 0, 0, 0, 0, 0, 0, 0, 0, 0, 0]

/-- C7 counterexample: a root record with tag byte 2 does not produce a
propagated (returned) error — `FST::new` calls
`.expect("Couldn't read root fst entry.")` on the `Entry::new` result and
panics. -/
theorem c7_root_bad_tag_panics :
    FST.new c7Bytes 0 = .panicked ∧ FST.new c7Bytes 0 ≠ .ioError := by decide

/-- C9 counterexample: a write that exceeds `ROM_SIZE` fails with the
capacity error naming `DEFAULT_ALIGNMENT` (the source formats the constant
`DEFAULT_ALIGNMENT` into the message), which is not the configured
alignment whenever the user chose any other value (e.g. the minimum, 4). -/
theorem c9_capacity_error_names_default_alignment :
    ROMRebuilder.write [(ROM_SIZE, [7])] = .capacityError DEFAULT_ALIGNMENT ∧
    DEFAULT_ALIGNMENT ≠ 4 := by
  constructor
  · rfl
  · decide

/-! ## Alignment arithmetic and the tentative-offset chain -/

/-- `align n a` rounds up: `n ≤ align n a` whenever `a > 0`. -/
theorem le_align (n a : Nat) (ha : 0 < a) : n ≤ align n a := by
  unfold align
  rcases Nat.eq_zero_or_pos (n % a) with h | h
  · simp [h]
    have h1 := Nat.div_add_mod n a
    have h2 : n / a * a = a * (n / a) := Nat.mul_comm _ _
    omega
  · have hne : ¬ n % a = 0 := by omega
    simp [hne]
    have h1 := Nat.div_add_mod n a
    have h2 : n % a < a := Nat.mod_lt _ ha
    have h3 : (n / a + 1) * a = a * (n / a) + a := by ring
    omega

/-- `align n a` is a multiple of `a`. -/
theorem align_mod (n a : Nat) : align n a % a = 0 := by
  unfold align
  exact Nat.mul_mod_left _ _

/-- `AlignedRun a c fs c2` says: starting from the running counter `c`, the
`(offset, size)` pairs `fs` are laid out in order, each at the current
counter, which then advances by the size rounded up to `a`; `c2` is the
final counter.  This is exactly the discipline `add_entries_in_directory`
and `FSTRebuilderInfo::add_entry` impose on tentative file offsets. -/
def AlignedRun (a : Nat) : Nat → List (Nat × Nat) → Nat → Prop
  | c, [], c2 => c2 = c
  | c, (off, s) :: rest, c2 => off = c ∧ AlignedRun a (c + align s a) rest c2

theorem alignedRun_append {a : Nat} :
    ∀ {c c2 c3 : Nat} {l1 l2 : List (Nat × Nat)},
      AlignedRun a c l1 c2 → AlignedRun a c2 l2 c3 →
      AlignedRun a c (l1 ++ l2) c3 := by
  intro c c2 c3 l1
  induction l1 generalizing c with
  | nil => intro l2 h1 h2; cases h1; simpa using h2
  | cons p rest ih =>
    intro l2 h1 h2
    obtain ⟨hoff, hrest⟩ := h1
    exact ⟨hoff, ih hrest h2⟩

theorem alignedRun_sum {a : Nat} :
    ∀ {c c2 : Nat} {l : List (Nat × Nat)}, AlignedRun a c l c2 →
      c2 = c + (l.map (fun p => align p.2 a)).sum := by
  intro c c2 l
  induction l generalizing c with
  | nil => intro h; simpa using h
  | cons p rest ih =>
    intro h
    obtain ⟨hoff, hrest⟩ := h
    have := ih hrest
    simp only [List.map_cons, List.sum_cons]
    omega

theorem alignedRun_offset_ge {a : Nat} :
    ∀ {c c2 : Nat} {l : List (Nat × Nat)}, AlignedRun a c l c2 →
      ∀ p ∈ l, c ≤ p.1 := by
  intro c c2 l
  induction l generalizing c with
  | nil => intro _ p hp; cases hp
  | cons q rest ih =>
    intro h p hp
    obtain ⟨hoff, hrest⟩ := h
    rcases List.mem_cons.mp hp with hp | hp
    · subst hp; omega
    · have := ih hrest p hp
      omega

/-- Along an aligned run started at a multiple of `a`, every offset is a
multiple of `a`. -/
theorem alignedRun_offset_mod {a : Nat} :
    ∀ {c c2 : Nat} {l : List (Nat × Nat)}, AlignedRun a c l c2 →
      c % a = 0 → ∀ p ∈ l, p.1 % a = 0 := by
  intro c c2 l
  induction l generalizing c with
  | nil => intro _ _ p hp; cases hp
  | cons q rest ih =>
    intro h hc p hp
    obtain ⟨hoff, hrest⟩ := h
    rcases List.mem_cons.mp hp with hp | hp
    · subst hp; simpa [hoff] using hc
    · refine ih hrest ?_ p hp
      rw [Nat.add_mod, hc, align_mod]
      simp

/-- Along an aligned run with positive alignment the file ranges are laid out
in strictly forward order: each file ends no later than the next one
starts. -/
theorem alignedRun_pairwise {a : Nat} (ha : 0 < a) :
    ∀ {c c2 : Nat} {l : List (Nat × Nat)}, AlignedRun a c l c2 →
      l.Pairwise (fun p q => p.1 + p.2 ≤ q.1) := by
  intro c c2 l
  induction l generalizing c with
  | nil => intro _; exact List.Pairwise.nil
  | cons q rest ih =>
    intro h
    obtain ⟨hoff, hrest⟩ := h
    refine List.Pairwise.cons ?_ (ih hrest)
    intro p hp
    have h1 := alignedRun_offset_ge hrest p hp
    have h2 := le_align q.2 a ha
    omega

/-! ## List surgery helpers for the rebuild walk -/

theorem get_append_len {α : Type} (l1 : List α) (e : α) (t : List α) :
    (l1 ++ e :: t).get? l1.length = some e := by
  induction l1 with
  | nil => rfl
  | cons x xs ih => simpa using ih

theorem set_append_len {α : Type} (l1 : List α) (e x : α) (t : List α) :
    (l1 ++ e :: t).set l1.length x = l1 ++ x :: t := by
  induction l1 with
  | nil => rfl
  | cons y ys ih => simp [ih]

theorem filesOf_append {σ : Type} (l1 l2 : List (Entry σ)) :
    filesOf (l1 ++ l2) = filesOf l1 ++ filesOf l2 := by
  simp [filesOf]

theorem filesOf_cons_dir {σ : Type} (i : EntryInfo σ) (p nx fc : Nat)
    (l : List (Entry σ)) :
    filesOf (.directory i p nx fc :: l) = filesOf l := by
  simp [filesOf]

theorem filesOf_cons_file {σ : Type} (i : EntryInfo σ) (o sz : Nat)
    (l : List (Entry σ)) :
    filesOf (.file i o sz :: l) = (o, sz) :: filesOf l := by
  simp [filesOf]

/-- `patchDir` on an accumulator whose entries end with the directory being
patched followed by its subtree: the directory's closing fields are filled
in and nothing else moves. -/
theorem patchDir_append (rbX : RbInfo) (pre : List (Entry String))
    (info : EntryInfo String) (pi nx0 fc0 fc2 nx : Nat)
    (tail : List (Entry String))
    (hE : rbX.entries = pre ++ (.directory info pi nx0 fc0) :: tail) :
    patchDir rbX pre.length fc2 nx =
      { rbX with entries := pre ++ (.directory info pi nx fc2) :: tail } := by
  unfold patchDir
  rw [hE, get_append_len]
  simp [set_append_len]

/-- Specification of the traversal accumulator: `add_entries_in_directory`
only appends entries, keeps the alignment, and lays the tentative file
offsets of the appended entries out as an aligned run of the running
file-system counter, counting the files as it goes. -/
theorem add_entries_spec :
    ∀ (n : Nat) (children : List HostNode), sizeOf children ≤ n →
    ∀ (rb rb2 : RbInfo) (k : Nat),
      add_entries_in_directory children rb = (rb2, k) →
      rb2.alignment = rb.alignment ∧
      ∃ Δ, rb2.entries = rb.entries ++ Δ ∧
        AlignedRun rb.alignment rb.file_system_size (filesOf Δ)
          rb2.file_system_size ∧
        rb2.file_count = rb.file_count + (filesOf Δ).length := by
  intro n
  induction n using Nat.strong_induction_on with
  | _ n ih =>
    intro children hsz rb rb2 k h
    cases children with
    | nil =>
      rw [add_entries_in_directory] at h
      obtain ⟨rfl, rfl⟩ := Prod.mk.injEq .. ▸ h
      exact ⟨rfl, [], by simp, by exact rfl, by simp [filesOf]⟩
    | cons child rest =>
      have hrest_lt : sizeOf rest < n := by
        have := List.cons.sizeOf_spec child rest
        omega
      cases child with
      | file name size =>
        rw [add_entries_in_directory] at h
        by_cases hig : is_file_ignored name = true
        · simp only [hig, if_true] at h
          exact ih (sizeOf rest) hrest_lt rest (le_refl _) rb rb2 k h
        · simp only [hig, if_false, Bool.false_eq_true] at h
          rcases hx : add_entries_in_directory rest
              (RbInfo.add_entry
                { rb with filename_offset := rb.filename_offset + name.length + 1 }
                (.file
                  { index := rb.entries.length, name := name,
                    filename_offset := rb.filename_offset,
                    directory_index := rb.parent_index,
                    full_path := rb.current_path ++ [name] }
                  rb.file_system_size size)) with ⟨rb3, k3⟩
          rw [hx] at h
          obtain ⟨rfl, rfl⟩ := Prod.mk.injEq .. ▸ h
          obtain ⟨halign, Δr, hent, hrun, hcnt⟩ :=
            ih (sizeOf rest) hrest_lt rest (le_refl _) _ rb3 k3 hx
          refine ⟨by simpa [RbInfo.add_entry] using halign,
            Entry.file
              { index := rb.entries.length, name := name,
                filename_offset := rb.filename_offset,
                directory_index := rb.parent_index,
                full_path := rb.current_path ++ [name] }
              rb.file_system_size size :: Δr, ?_, ?_, ?_⟩
          · simpa [RbInfo.add_entry] using hent
          · refine ⟨rfl, ?_⟩
            simpa [RbInfo.add_entry] using hrun
          · simp only [filesOf, List.filterMap_cons] at hcnt ⊢
            simp only [RbInfo.add_entry] at hcnt
            simp at hcnt ⊢
            omega
      | dir name sub =>
        have hsub_lt : sizeOf sub < n := by
          have h1 := List.cons.sizeOf_spec (HostNode.dir name sub) rest
          have h2 : sizeOf (HostNode.dir name sub) = 1 + sizeOf name + sizeOf sub :=
            HostNode.dir.sizeOf_spec name sub
          omega
        rw [add_entries_in_directory] at h
        by_cases hig : is_file_ignored name = true
        · simp only [hig, if_true] at h
          exact ih (sizeOf rest) hrest_lt rest (le_refl _) rb rb2 k h
        · simp only [hig, if_false, Bool.false_eq_true] at h
          rw [rebuild_dir_info] at h
          simp only [RbInfo.add_entry, Entry.info] at h
          rcases hsub : add_entries_in_directory sub
              { entries :=
                  rb.entries ++
                    [Entry.directory
                        { index := rb.entries.length, name := name,
                          filename_offset := rb.filename_offset,
                          directory_index := rb.parent_index,
                          full_path := rb.current_path ++ [name] }
                        (rb.parent_index.getD 0) 0 0],
                file_system_size := rb.file_system_size,
                filename_offset := rb.filename_offset + name.length + 1,
                file_count := rb.file_count,
                parent_index := some rb.entries.length,
                current_path := rb.current_path ++ [name],
                alignment := rb.alignment } with ⟨rbC, imm⟩
          obtain ⟨halignC, ΔS, hentC, hrunC, hcntC⟩ :=
            ih (sizeOf sub) hsub_lt sub (le_refl _) _ rbC imm hsub
          rw [hsub] at h
          simp only [List.length_append, List.length_singleton] at h
          have hCent : rbC.entries =
              rb.entries ++
                Entry.directory
                  { index := rb.entries.length, name := name,
                    filename_offset := rb.filename_offset,
                    directory_index := rb.parent_index,
                    full_path := rb.current_path ++ [name] }
                  (rb.parent_index.getD 0) 0 0 :: ΔS := by
            simpa using hentC
          have hpatch := patchDir_append
            { entries := rbC.entries,
              file_system_size := rbC.file_system_size,
              filename_offset := rbC.filename_offset,
              file_count := rbC.file_count,
              parent_index := rb.parent_index,
              current_path := rbC.current_path.dropLast,
              alignment := rbC.alignment }
            rb.entries
            { index := rb.entries.length, name := name,
              filename_offset := rb.filename_offset,
              directory_index := rb.parent_index,
              full_path := rb.current_path ++ [name] }
            (rb.parent_index.getD 0) 0 0 imm
            (rb.entries.length + (rbC.entries.length - (rb.entries.length + 1)) + 1)
            ΔS hCent
          rw [hpatch] at h
          rcases hrest : add_entries_in_directory rest
              { entries :=
                  rb.entries ++
                    Entry.directory
                      { index := rb.entries.length, name := name,
                        filename_offset := rb.filename_offset,
                        directory_index := rb.parent_index,
                        full_path := rb.current_path ++ [name] }
                      (rb.parent_index.getD 0)
                      (rb.entries.length + (rbC.entries.length - (rb.entries.length + 1)) + 1)
                      imm :: ΔS,
                file_system_size := rbC.file_system_size,
                filename_offset := rbC.filename_offset,
                file_count := rbC.file_count,
                parent_index := rb.parent_index,
                current_path := rbC.current_path.dropLast,
                alignment := rbC.alignment } with ⟨rb3, k3⟩
          rw [hrest] at h
          simp only [Prod.mk.injEq] at h
          obtain ⟨rfl, rfl⟩ := h
          obtain ⟨halignR, Δr, hentR, hrunR, hcntR⟩ :=
            ih (sizeOf rest) hrest_lt rest (le_refl _) _ rb3 k3 hrest
          have hA : rbC.alignment = rb.alignment := by simpa using halignC
          refine ⟨?_, Entry.directory
              { index := rb.entries.length, name := name,
                filename_offset := rb.filename_offset,
                directory_index := rb.parent_index,
                full_path := rb.current_path ++ [name] }
              (rb.parent_index.getD 0)
              (rb.entries.length + (rbC.entries.length - (rb.entries.length + 1)) + 1)
              imm :: (ΔS ++ Δr), ?_, ?_, ?_⟩
          · have h2 : rb3.alignment = rbC.alignment := by simpa using halignR
            exact h2.trans hA
          · simp only at hentR
            rw [hentR]
            simp
          · rw [filesOf_cons_dir, filesOf_append]
            have hC : AlignedRun rb.alignment rb.file_system_size
                (filesOf ΔS) rbC.file_system_size := by simpa using hrunC
            have hR : AlignedRun rbC.alignment rbC.file_system_size
                (filesOf Δr) rb3.file_system_size := by simpa using hrunR
            rw [hA] at hR
            exact alignedRun_append hC hR
          · rw [filesOf_cons_dir, filesOf_append]
            have h1 : rbC.file_count = rb.file_count + (filesOf ΔS).length := by
              simpa using hcntC
            have h2 : rb3.file_count = rbC.file_count + (filesOf Δr).length := by
              simpa using hcntR
            simp only [List.length_append]
            omega

/-- The whole walk from the synthetic root: the tentative file offsets of the
produced entries form an aligned run of the file-system counter from 0, and
`file_count` counts exactly the File entries. -/
theorem rebuild_walk_root_spec (children : List HostNode) (a : Nat) :
    AlignedRun a 0
      (filesOf (rebuild_dir_info rebuildRootEntry children
        { entries := [], file_system_size := 0, filename_offset := 0,
          file_count := 0, parent_index := none, current_path := [],
          alignment := a }).entries)
      (rebuild_dir_info rebuildRootEntry children
        { entries := [], file_system_size := 0, filename_offset := 0,
          file_count := 0, parent_index := none, current_path := [],
          alignment := a }).file_system_size ∧
    (rebuild_dir_info rebuildRootEntry children
        { entries := [], file_system_size := 0, filename_offset := 0,
          file_count := 0, parent_index := none, current_path := [],
          alignment := a }).file_count =
      (filesOf (rebuild_dir_info rebuildRootEntry children
        { entries := [], file_system_size := 0, filename_offset := 0,
          file_count := 0, parent_index := none, current_path := [],
          alignment := a }).entries).length ∧
    (rebuild_dir_info rebuildRootEntry children
        { entries := [], file_system_size := 0, filename_offset := 0,
          file_count := 0, parent_index := none, current_path := [],
          alignment := a }).alignment = a := by
  rw [rebuild_dir_info]
  simp only [RbInfo.add_entry, Entry.info, rebuildRootEntry]
  rcases hsub : add_entries_in_directory children
      { entries := [] ++ [Entry.directory
          { index := 0, name := "/", filename_offset := 0,
            directory_index := none, full_path := ["/"] } 0 0 0],
        file_system_size := 0, filename_offset := 0, file_count := 0,
        parent_index := some 0, current_path := [] ++ ["/"],
        alignment := a } with ⟨rbC, imm⟩
  simp only [List.nil_append, List.length_singleton, Nat.zero_add]
  obtain ⟨halignC, ΔS, hentC, hrunC, hcntC⟩ :=
    add_entries_spec (sizeOf children) children (le_refl _) _ rbC imm hsub
  simp only at halignC hentC hrunC hcntC
  have hCent : rbC.entries =
      [] ++ Entry.directory
        { index := 0, name := "/", filename_offset := 0,
          directory_index := none, full_path := ["/"] } 0 0 0 :: ΔS := by
    simpa using hentC
  have hpatch := patchDir_append
    { entries := rbC.entries, file_system_size := rbC.file_system_size,
      filename_offset := rbC.filename_offset, file_count := rbC.file_count,
      parent_index := none, current_path := rbC.current_path.dropLast,
      alignment := rbC.alignment }
    []
    { index := 0, name := "/", filename_offset := 0,
      directory_index := none, full_path := ["/"] }
    0 0 0 imm (rbC.entries.length - 1 + 1) ΔS hCent
  simp only [List.length_nil] at hpatch
  rw [hpatch]
  simp only [List.nil_append]
  rw [filesOf_cons_dir]
  refine ⟨by simpa using hrunC, by simpa using hcntC, halignC⟩

theorem filesOf_length_eq_countFiles {σ : Type} (l : List (Entry σ)) :
    (filesOf l).length = countFiles l := by
  induction l with
  | nil => rfl
  | cons e rest ih =>
    cases e <;> simp [filesOf, countFiles, Entry.is_file] at ih ⊢ <;> omega

theorem filesOf_sum_aligned {σ : Type} (a : Nat) (l : List (Entry σ)) :
    ((filesOf l).map (fun p => align p.2 a)).sum = sumAlignedFileSizes a l := by
  induction l with
  | nil => rfl
  | cons e rest ih =>
    cases e <;> simp [filesOf, sumAlignedFileSizes] at ih ⊢ <;> omega

/-- Shifting the file offsets by a base leaves the extracted `(offset, size)`
pairs shifted accordingly. -/
theorem filesOf_map_shift (b : Nat) (l : List (Entry String)) :
    filesOf (l.map (fun e =>
        match e with
        | .file i o sz => Entry.file i (o + b) sz
        | d => d)) =
      (filesOf l).map (fun p => (p.1 + b, p.2)) := by
  induction l with
  | nil => rfl
  | cons e rest ih =>
    cases e <;> simp [filesOf] at ih ⊢ <;> exact ih

theorem countFiles_map_shift (b : Nat) (l : List (Entry String)) :
    countFiles (l.map (fun e =>
        match e with
        | .file i o sz => Entry.file i (o + b) sz
        | d => d)) = countFiles l := by
  induction l with
  | nil => rfl
  | cons e rest ih =>
    cases e <;> simp [countFiles, Entry.is_file] at ih ⊢ <;> omega

theorem sumAlignedFileSizes_map_shift (a b : Nat) (l : List (Entry String)) :
    sumAlignedFileSizes a (l.map (fun e =>
        match e with
        | .file i o sz => Entry.file i (o + b) sz
        | d => d)) = sumAlignedFileSizes a l := by
  induction l with
  | nil => rfl
  | cons e rest ih =>
    cases e <;> simp [sumAlignedFileSizes] at ih ⊢ <;> omega

/-- C8: under any positive configured alignment, rebuilding assigns every file
a final absolute offset that is a multiple of the alignment, the files'
`[offset, offset+size)` ranges never overlap (each file ends no later than
the next begins, in traversal order), and every final offset is exactly the
tentative offset produced by the walk plus the single alignment-rounded
file-system base offset (the third component of the result), never
recomputed per file. -/
theorem c8_rebuild_placement (children : List HostNode) (a apl dol : Nat)
    (ha : 0 < a) :
    (FSTRebuilder.rebuild children a apl dol).2.2 % a = 0 ∧
    (∀ p ∈ filesOf (FSTRebuilder.rebuild children a apl dol).1.entries,
        p.1 % a = 0) ∧
    (filesOf (FSTRebuilder.rebuild children a apl dol).1.entries).Pairwise
      (fun p q => p.1 + p.2 ≤ q.1) ∧
    filesOf (FSTRebuilder.rebuild children a apl dol).1.entries =
      (filesOf (rebuild_dir_info rebuildRootEntry children
          { entries := [], file_system_size := 0, filename_offset := 0,
            file_count := 0, parent_index := none, current_path := [],
            alignment := a }).entries).map
        (fun p => (p.1 + (FSTRebuilder.rebuild children a apl dol).2.2, p.2)) := by
  obtain ⟨hrun, hcnt, halign⟩ := rebuild_walk_root_spec children a
  have hb : (FSTRebuilder.rebuild children a apl dol).2.2 % a = 0 := by
    simp only [FSTRebuilder.rebuild]
    exact align_mod _ _
  have hent : filesOf (FSTRebuilder.rebuild children a apl dol).1.entries =
      (filesOf (rebuild_dir_info rebuildRootEntry children
          { entries := [], file_system_size := 0, filename_offset := 0,
            file_count := 0, parent_index := none, current_path := [],
            alignment := a }).entries).map
        (fun p => (p.1 + (FSTRebuilder.rebuild children a apl dol).2.2, p.2)) := by
    simp only [FSTRebuilder.rebuild]
    exact filesOf_map_shift _ _
  refine ⟨hb, ?_, ?_, hent⟩
  · intro p hp
    rw [hent] at hp
    obtain ⟨q, hq, rfl⟩ := List.mem_map.mp hp
    have h1 := alignedRun_offset_mod hrun (Nat.zero_mod a) q hq
    rw [Nat.add_mod, h1, hb]
    simp
  · rw [hent]
    refine List.Pairwise.map _ (fun p q hpq => ?_) (alignedRun_pairwise ha hrun)
    simp only
    omega

/-- A small host tree used to witness C8. -/
def c8Children : List HostNode :=
  [HostNode.file "a.txt" 5, HostNode.dir "sub" [HostNode.file "b.txt" 3]]

/-- Witness for C8 at a concrete host tree and alignment 32. -/
theorem c8_rebuild_placement_witness :
    0 < 32 ∧
    ((FSTRebuilder.rebuild c8Children 32 10 20).2.2 % 32 = 0 ∧
    (∀ p ∈ filesOf (FSTRebuilder.rebuild c8Children 32 10 20).1.entries,
        p.1 % 32 = 0) ∧
    (filesOf (FSTRebuilder.rebuild c8Children 32 10 20).1.entries).Pairwise
      (fun p q => p.1 + p.2 ≤ q.1) ∧
    filesOf (FSTRebuilder.rebuild c8Children 32 10 20).1.entries =
      (filesOf (rebuild_dir_info rebuildRootEntry c8Children
          { entries := [], file_system_size := 0, filename_offset := 0,
            file_count := 0, parent_index := none, current_path := [],
            alignment := 32 }).entries).map
        (fun p => (p.1 + (FSTRebuilder.rebuild c8Children 32 10 20).2.2, p.2))) :=
  ⟨by decide, c8_rebuild_placement c8Children 32 10 20 (by decide)⟩

/-! ## Decode-side size accounting (C5) -/

theorem countFiles_append {σ : Type} (l1 l2 : List (Entry σ)) :
    countFiles (l1 ++ l2) = countFiles l1 + countFiles l2 := by
  simp [countFiles, List.filter_append]

theorem sumFileSizes_append {σ : Type} (l1 l2 : List (Entry σ)) :
    sumFileSizes (l1 ++ l2) = sumFileSizes l1 + sumFileSizes l2 := by
  simp [sumFileSizes]

/-- Replacing a Directory entry by a Directory entry moves neither file count
nor file sizes. -/
theorem counts_set_dir {σ : Type} :
    ∀ (l : List (Entry σ)) (i : Nat) (inf : EntryInfo σ) (p nx fc : Nat)
      (inf2 : EntryInfo σ) (p2 nx2 fc2 : Nat),
      l.get? i = some (.directory inf p nx fc) →
      countFiles (l.set i (.directory inf2 p2 nx2 fc2)) = countFiles l ∧
      sumFileSizes (l.set i (.directory inf2 p2 nx2 fc2)) = sumFileSizes l := by
  intro l
  induction l with
  | nil => intro i _ _ _ _ _ _ _ _ h; simp at h
  | cons e rest ih =>
    intro i inf p nx fc inf2 p2 nx2 fc2 h
    cases i with
    | zero =>
      simp only [List.get?] at h
      injection h with h
      subst h
      simp [countFiles, sumFileSizes, Entry.is_file]
    | succ j =>
      simp only [List.get?] at h
      have := ih j inf p nx fc inf2 p2 nx2 fc2 h
      simp only [List.set]
      constructor
      · have h1 := countFiles_append [e] (rest.set j (.directory inf2 p2 nx2 fc2))
        have h2 := countFiles_append [e] rest
        simp only [List.singleton_append] at h1 h2
        omega
      · have h1 := sumFileSizes_append [e] (rest.set j (.directory inf2 p2 nx2 fc2))
        have h2 := sumFileSizes_append [e] rest
        simp only [List.singleton_append] at h1 h2
        omega

theorem setDirFileCount_counts (entries e2 : List (Entry (List Nat)))
    (i cnt : Nat) (h : setDirFileCount entries i cnt = some e2) :
    countFiles e2 = countFiles entries ∧
    sumFileSizes e2 = sumFileSizes entries := by
  unfold setDirFileCount at h
  split at h
  case _ inf p nx fc hg =>
    injection h with h
    subst h
    exact counts_set_dir entries i inf p nx fc inf p nx cnt hg
  case _ => exact absurd h (by simp)

theorem popParents_counts :
    ∀ (parents : List (Nat × Nat × Nat)) (entries e2 : List (Entry (List Nat)))
      (p2 : List (Nat × Nat × Nat)) (index : Nat),
      popParents entries parents index = .ok (e2, p2) →
      countFiles e2 = countFiles entries ∧
      sumFileSizes e2 = sumFileSizes entries := by
  intro parents
  induction parents with
  | nil =>
    intro entries e2 p2 index h
    unfold popParents at h
    injection h with h
    injection h with h1 h2
    subst h1
    exact ⟨rfl, rfl⟩
  | cons frame rest ih =>
    intro entries e2 p2 index h
    obtain ⟨pi, pnext, pcount⟩ := frame
    rw [popParents] at h
    by_cases heq : pnext = index
    · simp only [heq, if_true] at h
      split at h
      case _ e3 hset =>
        obtain ⟨h1, h2⟩ := setDirFileCount_counts entries e3 pi pcount hset
        obtain ⟨h3, h4⟩ := ih e3 e2 p2 index h
        exact ⟨h3.trans h1, h4.trans h2⟩
      case _ => exact absurd h (by simp)
    · simp only [heq, if_false] at h
      injection h with h
      injection h with h1 h2
      subst h1
      exact ⟨rfl, rfl⟩


theorem countFiles_single_file {σ : Type} (i : EntryInfo σ) (o sz : Nat) :
    countFiles [(.file i o sz : Entry σ)] = 1 := rfl

theorem countFiles_single_dir {σ : Type} (i : EntryInfo σ) (p nx fc : Nat) :
    countFiles [(.directory i p nx fc : Entry σ)] = 0 := rfl

theorem sumFileSizes_single_file {σ : Type} (i : EntryInfo σ) (o sz : Nat) :
    sumFileSizes [(.file i o sz : Entry σ)] = sz := by
  simp [sumFileSizes]

theorem sumFileSizes_single_dir {σ : Type} (i : EntryInfo σ) (p nx fc : Nat) :
    sumFileSizes [(.directory i p nx fc : Entry σ)] = 0 := by
  simp [sumFileSizes]

/-- The record loop keeps the running counters in lockstep with the entries
read so far. -/
theorem readLoop_counts (data : List Nat) (offset : Nat) :
    ∀ (fuel index : Nat) (st st2 : ReadState),
      readLoop data offset index fuel st = .ok st2 →
      st.file_count = countFiles st.entries →
      st.total_file_system_size = sumFileSizes st.entries →
      st2.file_count = countFiles st2.entries ∧
      st2.total_file_system_size = sumFileSizes st2.entries := by
  intro fuel
  induction fuel with
  | zero =>
    intro index st st2 h h1 h2
    rw [readLoop] at h
    injection h with h
    subst h
    exact ⟨h1, h2⟩
  | succ fuel ih =>
    intro index st st2 h h1 h2
    rw [readLoop] at h
    split at h
    case _ => exact absurd h (by simp)
    case _ => exact absurd h (by simp)
    case _ entries parents hpop =>
      obtain ⟨hc, hs⟩ := popParents_counts st.parents st.entries entries parents index hpop
      split at h
      case _ => exact absurd h (by simp)
      case _ buf hbuf =>
        dsimp only at h
        split at h
        case _ => exact absurd h (by simp)
        case _ entry hentry =>
          split at h
          case _ inf fo sz =>
            refine ih (index + 1) _ st2 h ?_ ?_
            · simp only
              rw [countFiles_append, countFiles_single_file, hc, h1]
            · simp only
              rw [sumFileSizes_append, sumFileSizes_single_file, hs, h2]
          case _ inf pi nxt fc =>
            refine ih (index + 1) _ st2 h ?_ ?_
            · simp only
              rw [countFiles_append, countFiles_single_dir, hc, h1]
              omega
            · simp only
              rw [sumFileSizes_append, sumFileSizes_single_dir, hs, h2]
              omega

/-- Setting a name never changes the entry's variant or size. -/
theorem read_filename_counts (data : List Nat) (sa : Nat) :
    ∀ (l : List (Entry (List Nat))) (pos endv : Nat),
      countFiles (readFilenamesLoop data sa l pos endv).1 = countFiles l ∧
      sumFileSizes (readFilenamesLoop data sa l pos endv).1 = sumFileSizes l := by
  intro l
  induction l with
  | nil => intro pos endv; exact ⟨rfl, rfl⟩
  | cons e rest ih =>
    intro pos endv
    rw [readFilenamesLoop]
    have hvar : ∀ pos0, ((e.read_filename data sa pos0).1.is_file = e.is_file) ∧
        (∀ i o sz, (e.read_filename data sa pos0).1 = .file i o sz →
          ∃ i0, e = .file i0 o sz) := by
      intro pos0
      unfold Entry.read_filename
      split <;> cases e <;> simp [Entry.setName, Entry.is_file]
    rcases hrf : e.read_filename data sa pos with ⟨e2, pos2⟩
    rcases hrec : readFilenamesLoop data sa rest pos2 (max pos2 endv) with ⟨l3, p3, e3⟩
    have h1 := (ih pos2 (max pos2 endv)).1
    have h2 := (ih pos2 (max pos2 endv)).2
    rw [hrec] at h1 h2
    simp only at h1 h2
    simp only [hrf, hrec]
    have hv := hvar pos
    rw [hrf] at hv
    simp only at hv
    constructor
    · have ha := countFiles_append [e2] l3
      have hb := countFiles_append [e] rest
      simp only [List.singleton_append] at ha hb
      have : countFiles [e2] = countFiles [e] := by
        cases e2 <;> cases e <;>
          simp_all [countFiles, Entry.is_file, Entry.setName]
      omega
    · have ha := sumFileSizes_append [e2] l3
      have hb := sumFileSizes_append [e] rest
      simp only [List.singleton_append] at ha hb
      have : sumFileSizes [e2] = sumFileSizes [e] := by
        cases e2 with
        | file i2 o2 s2 =>
          obtain ⟨i0, h0⟩ := hv.2 i2 o2 s2 rfl
          subst h0
          simp [sumFileSizes]
        | directory i2 p2 n2 f2 =>
          cases e with
          | file i0 o0 s0 => simp [Entry.is_file] at hv
          | directory i0 p0 n0 f0 => simp [sumFileSizes]
      omega

/-- The full-path pass never changes variants or sizes either. -/
theorem setFullPath_map_counts {σ : Type} (g : Entry σ → List σ)
    (l : List (Entry σ)) :
    countFiles (l.map (fun e => e.setFullPath (g e))) = countFiles l ∧
    sumFileSizes (l.map (fun e => e.setFullPath (g e))) = sumFileSizes l := by
  induction l with
  | nil => exact ⟨rfl, rfl⟩
  | cons e rest ih =>
    simp only [List.map_cons]
    constructor
    · have ha := countFiles_append [e.setFullPath (g e)]
        (rest.map (fun e => e.setFullPath (g e)))
      have hb := countFiles_append [e] rest
      simp only [List.singleton_append] at ha hb
      have : countFiles [e.setFullPath (g e)] = countFiles [e] := by
        cases e <;> simp [countFiles, Entry.is_file, Entry.setFullPath]
      omega
    · have ha := sumFileSizes_append [e.setFullPath (g e)]
        (rest.map (fun e => e.setFullPath (g e)))
      have hb := sumFileSizes_append [e] rest
      simp only [List.singleton_append] at ha hb
      have : sumFileSizes [e.setFullPath (g e)] = sumFileSizes [e] := by
        cases e <;> simp [sumFileSizes, Entry.setFullPath]
      omega

/-- Every successfully decoded FST has `file_count` equal to the number of
File entries and `total_file_system_size` equal to the sum of their raw
sizes. -/
theorem fst_new_counts (data : List Nat) (offset : Nat) (f : FST (List Nat))
    (h : FST.new data offset = .ok f) :
    f.file_count = countFiles f.entries ∧
    f.total_file_system_size = sumFileSizes f.entries := by
  unfold FST.new at h
  split at h
  case _ => exact absurd h (by simp)
  case _ buf hbuf =>
    split at h
    case _ => exact absurd h (by simp)
    case _ root hroot =>
      split at h
      case _ => exact absurd h (by simp)
      case _ rinf rp entry_count rf =>
        split at h
        case _ => exact absurd h (by simp)
        case _ => exact absurd h (by simp)
        case _ st hloop =>
          dsimp only at h
          rcases hRF : readFilenamesLoop data
              (offset + ENTRY_SIZE + ENTRY_SIZE * (entry_count - 1)) st.entries
              (offset + ENTRY_SIZE + ENTRY_SIZE * (entry_count - 1)) 0
            with ⟨l2, p2, e2⟩
          rw [hRF] at h
          dsimp only at h
          injection h with h
          subst h
          obtain ⟨hfc, hts⟩ := readLoop_counts data offset (entry_count - 1) 1
            { entries := [.directory rinf rp entry_count rf],
              parents := [(0, entry_count, 0)],
              file_count := 0, total_file_system_size := 0 } st hloop
            (by simp only; rw [countFiles_single_dir])
            (by simp only; rw [sumFileSizes_single_dir])
          have hRF2 := read_filename_counts data
            (offset + ENTRY_SIZE + ENTRY_SIZE * (entry_count - 1)) st.entries
            (offset + ENTRY_SIZE + ENTRY_SIZE * (entry_count - 1)) 0
          rw [hRF] at hRF2
          simp only at hRF2
          have hFP := setFullPath_map_counts (get_full_path l2 l2.length) l2
          simp only
          rw [hFP.1, hFP.2, hRF2.1, hRF2.2]
          exact ⟨hfc, hts⟩

/-- C5 (amended): on the decode path `file_count` counts the File entries and
`total_file_system_size` is the sum of the raw unaligned sizes; on the
rebuild path `file_count` counts the File entries but
`total_file_system_size` is the sum of the alignment-rounded sizes. -/
theorem c5_size_accounting :
    (∀ (data : List Nat) (offset : Nat) (f : FST (List Nat)),
        FST.new data offset = .ok f →
        f.file_count = countFiles f.entries ∧
        f.total_file_system_size = sumFileSizes f.entries) ∧
    (∀ (children : List HostNode) (a apl dol : Nat),
        (FSTRebuilder.rebuild children a apl dol).1.file_count =
          countFiles (FSTRebuilder.rebuild children a apl dol).1.entries ∧
        (FSTRebuilder.rebuild children a apl dol).1.total_file_system_size =
          sumAlignedFileSizes a (FSTRebuilder.rebuild children a apl dol).1.entries) := by
  constructor
  · exact fst_new_counts
  · intro children a apl dol
    obtain ⟨hrun, hcnt, halign⟩ := rebuild_walk_root_spec children a
    constructor
    · simp only [FSTRebuilder.rebuild]
      rw [countFiles_map_shift, ← filesOf_length_eq_countFiles]
      exact hcnt
    · simp only [FSTRebuilder.rebuild]
      rw [sumAlignedFileSizes_map_shift, ← filesOf_sum_aligned]
      have := alignedRun_sum hrun
      simpa using this

/-- Same two-entry table as `c4Bytes`, kept separately for the C5 witness. -/
def c5Bytes : List Nat :=
  [1, 0, 0, 0, 0, 0, 0, 0, 0, 0, 0, 2] ++
  [0, 0, 0, 0, 0, 0, 0, 0, 0, 0, 0, 5] ++
  [97, 0]

/-- The FST decoded from `c5Bytes`. -/
def c5DecodedFst : FST (List Nat) :=
  match FST.new c5Bytes 0 with
  | .ok f => f
  | _ => { offset := 0, file_count := 0, total_file_system_size := 0,
           entries := [], size := 0 }

/-- Witness for C5's decode side at a concrete table. -/
theorem c5_size_accounting_witness :
    FST.new c5Bytes 0 = .ok c5DecodedFst ∧
    (c5DecodedFst.file_count = countFiles c5DecodedFst.entries ∧
     c5DecodedFst.total_file_system_size = sumFileSizes c5DecodedFst.entries) :=
  ⟨by decide, c5_size_accounting.1 c5Bytes 0 c5DecodedFst (by decide)⟩

/-! ## Image-writer success-path specification (C9) -/

/-- The placement plan handed to `ROMRebuilder::write` after `files.sort()`:
each section begins no earlier than the cursor left by the previous one. -/
def OrderedPlan : Nat → List (Nat × List Nat) → Prop
  | _, [] => True
  | c, (off, content) :: rest => c ≤ off ∧ OrderedPlan (off + content.length) rest

instance : ∀ (c : Nat) (files : List (Nat × List Nat)), Decidable (OrderedPlan c files)
  | _, [] => .isTrue trivial
  | _, (off, content) :: rest =>
    have : Decidable (OrderedPlan (off + content.length) rest) :=
      instDecidableOrderedPlan _ _
    instDecidableAnd

theorem orderedPlan_mono :
    ∀ (files : List (Nat × List Nat)) (c1 c2 : Nat),
      c1 ≤ c2 → OrderedPlan c2 files → OrderedPlan c1 files
  | [], _, _, _, _ => trivial
  | (_, _) :: _, _, _, h, hp => ⟨le_trans h hp.1, hp.2⟩

/-- Every capacity error carries `DEFAULT_ALIGNMENT`. -/
theorem writeGo_capacity_error :
    ∀ (files : List (Nat × List Nat)) (cursor : Nat) (acc : List Nat) (a : Nat),
      ROMRebuilder.writeGo files cursor acc = .capacityError a →
      a = DEFAULT_ALIGNMENT := by
  intro files
  induction files with
  | nil =>
    intro cursor acc a h
    rw [ROMRebuilder.writeGo] at h
    exact absurd h (by simp)
  | cons p rest ih =>
    intro cursor acc a h
    obtain ⟨off, content⟩ := p
    rw [ROMRebuilder.writeGo] at h
    split at h
    · exact ih _ _ _ h
    · split at h
      · exact absurd h (by simp)
      · split at h
        · injection h with h
          exact h.symm
        · exact ih _ _ _ h

theorem drop_append_of_length {α : Type} (A B : List α) (n : Nat)
    (h : A.length = n) : (A ++ B).drop n = B := by
  subst h
  exact List.drop_left A B

theorem writeGo_ok_spec :
    ∀ (files : List (Nat × List Nat)) (cursor : Nat) (acc out : List Nat),
      ROMRebuilder.writeGo files cursor acc = .ok out →
      acc.length = cursor → cursor ≤ ROM_SIZE →
      OrderedPlan cursor files →
      out.length = ROM_SIZE ∧
      (∃ t, out = acc ++ t) ∧
      (∀ off c, (off, c) ∈ files → c ≠ [] → (out.drop off).take c.length = c) ∧
      (∀ i, cursor ≤ i → i < ROM_SIZE →
        (∀ off c, (off, c) ∈ files → ¬(off ≤ i ∧ i < off + c.length)) →
        out[i]? = some 0) := by
  intro files
  induction files with
  | nil =>
    intro cursor acc out h hacc hcur _
    rw [ROMRebuilder.writeGo] at h
    injection h with h
    subst h
    refine ⟨?_, ⟨_, rfl⟩, ?_, ?_⟩
    · simp [write_zeros, hacc]
      omega
    · intro _ _ hc; cases hc
    · intro i hi1 hi2 _
      rw [List.getElem?_append_right (by omega : acc.length ≤ i)]
      rw [hacc, write_zeros, List.getElem?_replicate]
      simp only [if_pos (by omega : i - cursor < ROM_SIZE - cursor)]
  | cons p rest ih =>
    intro cursor acc out h hacc hcur hord
    obtain ⟨off, content⟩ := p
    obtain ⟨hco, hordrest⟩ := hord
    rw [ROMRebuilder.writeGo] at h
    split at h
    case isTrue hclen =>
      have hce : content = [] := List.length_eq_zero.mp hclen
      obtain ⟨h1, h2, h3, h4⟩ := ih cursor acc out h hacc hcur
        (orderedPlan_mono rest cursor (off + content.length)
          (by omega) hordrest)
      refine ⟨h1, h2, ?_, ?_⟩
      · intro o c hc hne
        rcases List.mem_cons.mp hc with hc | hc
        · exact absurd (congrArg Prod.snd hc).symm (by simpa [hce] using hne)
        · exact h3 o c hc hne
      · intro i hi1 hi2 hfree
        exact h4 i hi1 hi2 (fun o c hc => hfree o c (List.mem_cons_of_mem _ hc))
    case isFalse hclen =>
      split at h
      case isTrue hlt => exact absurd h (by simp)
      case isFalse hge =>
        split at h
        case isTrue => exact absurd h (by simp)
        case isFalse hcap =>
          have hoff : cursor ≤ off := hco
          have hacc2 : (acc ++ write_zeros (off - cursor) ++ content).length =
              off + content.length := by
            simp [write_zeros, hacc]
            omega
          obtain ⟨h1, h2, h3, h4⟩ := ih (off + content.length)
            (acc ++ write_zeros (off - cursor) ++ content) out h hacc2
            (by omega) hordrest
          obtain ⟨t, ht⟩ := h2
          have hsplit : out = (acc ++ write_zeros (off - cursor)) ++ (content ++ t) := by
            rw [ht]; simp
          have hpreflen : (acc ++ write_zeros (off - cursor)).length = off := by
            simp [write_zeros, hacc]; omega
          refine ⟨h1, ⟨write_zeros (off - cursor) ++ content ++ t, by rw [ht]; simp⟩,
            ?_, ?_⟩
          · intro o c hc hne
            rcases List.mem_cons.mp hc with hc | hc
            · obtain ⟨ho, hcnt⟩ := Prod.mk.injEq .. ▸ hc
              subst ho; subst hcnt
              rw [hsplit, drop_append_of_length _ _ _ hpreflen, List.take_left]
            · exact h3 o c hc hne
          · intro i hi1 hi2 hfree
            by_cases hioff : i < off
            · rw [hsplit, List.getElem?_append_left (by rw [hpreflen]; omega)]
              rw [List.getElem?_append_right (by omega : acc.length ≤ i)]
              rw [hacc, write_zeros, List.getElem?_replicate]
              simp only [if_pos (by omega : i - cursor < off - cursor)]
            · by_cases hiin : i < off + content.length
              · exact absurd ⟨by omega, hiin⟩
                  (hfree off content (List.mem_cons_self _ _))
              · exact h4 i (by omega) hi2
                  (fun o c hc => hfree o c (List.mem_cons_of_mem _ hc))

/-- C9 (amended): the capacity error always names `DEFAULT_ALIGNMENT` (not the
configured alignment) and aborts; a successful write of an ordered,
non-overlapping plan emits exactly `ROM_SIZE` bytes, with every non-empty
section's bytes at its offset and zero everywhere no section covers. -/
theorem c9_write_spec :
    (∀ (files : List (Nat × List Nat)) (a : Nat),
        ROMRebuilder.write files = .capacityError a → a = DEFAULT_ALIGNMENT) ∧
    (∀ (files : List (Nat × List Nat)) (out : List Nat),
        OrderedPlan 0 files → ROMRebuilder.write files = .ok out →
        out.length = ROM_SIZE ∧
        (∀ off c, (off, c) ∈ files → c ≠ [] → (out.drop off).take c.length = c) ∧
        (∀ i, i < ROM_SIZE →
          (∀ off c, (off, c) ∈ files → ¬(off ≤ i ∧ i < off + c.length)) →
          out[i]? = some 0)) := by
  constructor
  · intro files a h
    exact writeGo_capacity_error files 0 [] a h
  · intro files out hord h
    obtain ⟨h1, _, h3, h4⟩ := writeGo_ok_spec files 0 [] out h rfl
      (by unfold ROM_SIZE; omega) hord
    exact ⟨h1, h3, fun i hi hfree => h4 i (Nat.zero_le i) hi hfree⟩

/-- A tiny ordered plan and its written image, for the C9 witness. -/
def c9Files : List (Nat × List Nat) := [(0, [1, 2, 3])]

def c9Out : List Nat :=
  match ROMRebuilder.write c9Files with
  | .ok out => out
  | _ => []

/-- Witness for C9's success side at a concrete plan. -/
theorem c9_write_spec_witness :
    OrderedPlan 0 c9Files ∧
    ROMRebuilder.write c9Files = .ok c9Out ∧
    c9Out.length = ROM_SIZE :=
  ⟨by decide, by rfl,
    (c9_write_spec.2 c9Files c9Out (by decide) (by rfl)).1⟩

/-! ## Decode failure modes (C7) -/

theorem entry_new_bad_tag (entry : List Nat) (i : Nat) (di : Option Nat)
    (h0 : entry.getD 0 0 ≠ 0) (h1 : entry.getD 0 0 ≠ 1) :
    Entry.new entry i di = .error "Invalid byte in entry" := by
  simp only [Entry.new]

/-- A table whose root record is a directory with `next_index` 2 but whose
second record is missing: the second `read_exact` fails. -/
def c7TruncatedBytes : List Nat := [1, 0, 0, 0, 0, 0, 0, 0, 0, 0, 0, 2]

/-- Root directory with `next_index` 2 followed by a record with tag byte 2. -/
def c7BadChildTagBytes : List Nat :=
  [1, 0, 0, 0, 0, 0, 0, 0, 0, 0, 0, 2] ++
  [2, 0, 0, 0, 0, 0, 0, 0, 0, 0, 0, 0]

/-- Root directory with `next_index` 2, a zero-size file, and a string table
whose single name byte `0xFF` is not valid UTF-8. -/
def c7LossyNameBytes : List Nat :=
  [1, 0, 0, 0, 0, 0, 0, 0, 0, 0, 0, 2] ++
  [0, 0, 0, 0, 0, 0, 0, 0, 0, 0, 0, 0] ++
  [255, 0]

/-- A 12-byte record whose tag byte is 0: a File, invalid as the root. -/
def c7FileRootBytes : List Nat := [0, 0, 0, 0, 0, 0, 0, 0, 0, 0, 0, 0]

/-- C7 (amended): decoding propagates an `io::Error` on a truncated root
record read and on a truncated or invalid-tag non-root record, but an
invalid root tag byte or a File-tagged (non-directory) root PANICS (the
source calls `.expect` on both root checks) rather than returning an error,
and a non-UTF-8 name never fails at all (`String::from_utf8_lossy` is
total, so the string-table pass cannot reject a name). -/
theorem c7_decode_failure_modes :
    (∀ (data : List Nat) (offset : Nat),
        readBytesAt data offset ENTRY_SIZE = none →
        FST.new data offset = .ioError) ∧
    (∀ (data : List Nat) (offset : Nat) (buf : List Nat),
        readBytesAt data offset ENTRY_SIZE = some buf →
        buf.getD 0 0 ≠ 0 → buf.getD 0 0 ≠ 1 →
        FST.new data offset = .panicked) ∧
    (∀ (data : List Nat) (offset : Nat) (buf : List Nat),
        readBytesAt data offset ENTRY_SIZE = some buf →
        buf.getD 0 0 = 0 →
        FST.new data offset = .panicked) ∧
    FST.new c7TruncatedBytes 0 = .ioError ∧
    FST.new c7BadChildTagBytes 0 = .ioError ∧
    (FST.new c7LossyNameBytes 0).isOk = true := by
  refine ⟨?_, ?_, ?_, by decide, by decide, by decide⟩
  · intro data offset h
    simp only [FST.new, h]
  · intro data offset buf hbuf h0 h1
    have he := entry_new_bad_tag buf 0 none h0 h1
    simp only [FST.new, hbuf, he]
  · intro data offset buf hbuf h0
    simp only [FST.new, hbuf, Entry.new, h0]

/-- Witness for C7's universally quantified components at concrete tables. -/
theorem c7_decode_failure_modes_witness :
    FST.new ([] : List Nat) 0 = .ioError ∧
    FST.new c7Bytes 0 = .panicked ∧
    FST.new c7FileRootBytes 0 = .panicked :=
  ⟨c7_decode_failure_modes.1 [] 0 (by decide),
   c7_decode_failure_modes.2.1 c7Bytes 0 c7Bytes (by decide) (by decide) (by decide),
   c7_decode_failure_modes.2.2.1 c7FileRootBytes 0 c7FileRootBytes (by decide) (by decide)⟩

/-! ## Layout lookup correctness (C10) -/

/-- Any index the binary-search loop answers carries an `Equal` comparison and
lies inside the searched range. -/
theorem bsGo_some (f : Nat → Ordering) :
    ∀ (n left right i : Nat), right - left ≤ n →
      binary_search_go f left right = some i →
      f i = .eq ∧ left ≤ i ∧ i < right := by
  intro n
  induction n with
  | zero =>
    intro left right i hn h
    rw [binary_search_go] at h
    split at h
    next hlt => omega
    next => exact absurd h (by simp)
  | succ n ih =>
    intro left right i hn h
    rw [binary_search_go] at h
    split at h
    next hlt =>
      split at h
      next hf =>
        obtain ⟨h1, h2, h3⟩ := ih (left + (right - left) / 2 + 1) right i (by omega) h
        exact ⟨h1, by omega, h3⟩
      next hf =>
        obtain ⟨h1, h2, h3⟩ := ih left (left + (right - left) / 2) i (by omega) h
        exact ⟨h1, h2, by omega⟩
      next hf =>
        injection h with h
        subst h
        exact ⟨hf, by omega, by omega⟩
    next => exact absurd h (by simp)

/-- When some index in range compares `Equal` and the comparator is
directionally monotone, the loop finds an answer. -/
theorem bsGo_complete (f : Nat → Ordering) (N : Nat)
    (hgt : ∀ i j, i ≤ j → j < N → f i = .gt → f j = .gt)
    (hlt : ∀ i j, j ≤ i → i < N → f i = .lt → f j = .lt) :
    ∀ (n left right j : Nat), right - left ≤ n → right ≤ N →
      left ≤ j → j < right → f j = .eq →
      ∃ i, binary_search_go f left right = some i := by
  intro n
  induction n with
  | zero => intro left right j hn hN h1 h2 h3; omega
  | succ n ih =>
    intro left right j hn hN h1 h2 h3
    have hlr : left < right := by omega
    cases hf : f (left + (right - left) / 2) with
    | lt =>
      have hj : left + (right - left) / 2 + 1 ≤ j := by
        by_contra hc
        push_neg at hc
        have := hlt (left + (right - left) / 2) j (by omega) (by omega) hf
        rw [h3] at this
        exact absurd this (by simp)
      obtain ⟨i, hi⟩ := ih (left + (right - left) / 2 + 1) right j (by omega) hN hj h2 h3
      refine ⟨i, ?_⟩
      rw [binary_search_go, dif_pos hlr, hf]
      exact hi
    | gt =>
      have hj : j < left + (right - left) / 2 := by
        by_contra hc
        push_neg at hc
        have := hgt (left + (right - left) / 2) j hc (by omega) hf
        rw [h3] at this
        exact absurd this (by simp)
      obtain ⟨i, hi⟩ := ih left (left + (right - left) / 2) j (by omega) (by omega) h1 hj h3
      refine ⟨i, ?_⟩
      rw [binary_search_go, dif_pos hlr, hf]
      exact hi
    | eq =>
      refine ⟨left + (right - left) / 2, ?_⟩
      rw [binary_search_go, dif_pos hlr, hf]

/-- The three-way `compare_offset` answers exactly as the byte range
membership dictates, for non-empty sections. -/
theorem compare_offset_spec (s : Sec) (x : Nat) (hs : 0 < s.size) :
    (compare_offset s x = .eq ↔ containsOff s x) ∧
    (compare_offset s x = .lt ↔ s.start + s.size ≤ x) ∧
    (compare_offset s x = .gt ↔ x < s.start) := by
  unfold compare_offset Sec.endOff containsOff
  by_cases h1 : s.start + s.size - 1 < x
  · rw [if_pos h1]
    refine ⟨⟨fun h => absurd h (by decide), fun h => (by omega : False).elim⟩,
            ⟨fun _ => by omega, fun _ => rfl⟩,
            ⟨fun h => absurd h (by decide), fun h => (by omega : False).elim⟩⟩
  · rw [if_neg h1]
    by_cases h2 : s.start > x
    · rw [if_pos h2]
      refine ⟨⟨fun h => absurd h (by decide), fun h => (by omega : False).elim⟩,
              ⟨fun h => absurd h (by decide), fun h => (by omega : False).elim⟩,
              ⟨fun _ => by omega, fun _ => rfl⟩⟩
    · rw [if_neg h2]
      refine ⟨⟨fun _ => by omega, fun _ => rfl⟩,
              ⟨fun h => absurd h (by decide), fun h => (by omega : False).elim⟩,
              ⟨fun h => absurd h (by decide), fun h => (by omega : False).elim⟩⟩

/-- The implicit invariant of the Layout Index (spec section 4.4): the
sections, in list order, are sorted by start and pairwise non-overlapping,
and every section is non-empty (a zero-size section would underflow
`Section::end`). -/
def SortedDisjoint (layout : List Sec) : Prop :=
  (∀ i, i < layout.length → 0 < (layout.getD i default).size) ∧
  (∀ j, j < layout.length → ∀ i, i < j →
    (layout.getD i default).start + (layout.getD i default).size ≤
      (layout.getD j default).start)

instance (layout : List Sec) : Decidable (SortedDisjoint layout) := by
  unfold SortedDisjoint
  infer_instance

theorem get?_eq_getD {α : Type} [Inhabited α] :
    ∀ (l : List α) (i : Nat), i < l.length → l.get? i = some (l.getD i default)
  | [], i, h => by simp at h
  | a :: t, 0, _ => rfl
  | a :: t, i + 1, h => get?_eq_getD t i (by simpa using h)

/-- C10: on a sorted, non-overlapping layout of non-empty sections,
`find_offset` returns the section owning the queried offset when one
exists and `none` otherwise; and `compare_offset` orders a section Less
when the offset is past its end, Greater when before its start, Equal
exactly when the section's byte range contains it. -/
theorem c10_find_offset (layout : List Sec) (x : Nat)
    (h : SortedDisjoint layout) :
    (∀ j, j < layout.length → containsOff (layout.getD j default) x →
        find_offset layout x = some (layout.getD j default)) ∧
    ((∀ j, j < layout.length → ¬ containsOff (layout.getD j default) x) →
        find_offset layout x = none) ∧
    (∀ s : Sec, 0 < s.size →
      ((compare_offset s x = .eq ↔ containsOff s x) ∧
       (compare_offset s x = .lt ↔ s.start + s.size ≤ x) ∧
       (compare_offset s x = .gt ↔ x < s.start))) := by
  obtain ⟨hsz, hsort⟩ := h
  have hgt : ∀ i j, i ≤ j → j < layout.length →
      compare_offset (layout.getD i default) x = .gt →
      compare_offset (layout.getD j default) x = .gt := by
    intro i j hij hj hf
    have hix := ((compare_offset_spec _ x (hsz i (by omega))).2.2).mp hf
    rcases Nat.lt_or_ge i j with hlt | hge
    · refine ((compare_offset_spec _ x (hsz j hj)).2.2).mpr ?_
      have := hsort j hj i hlt
      omega
    · have : i = j := by omega
      subst this
      exact hf
  have hlt : ∀ i j, j ≤ i → i < layout.length →
      compare_offset (layout.getD i default) x = .lt →
      compare_offset (layout.getD j default) x = .lt := by
    intro i j hji hi hf
    have hix := ((compare_offset_spec _ x (hsz i hi)).2.1).mp hf
    rcases Nat.lt_or_ge j i with hlt2 | hge
    · refine ((compare_offset_spec _ x (hsz j (by omega))).2.1).mpr ?_
      have := hsort i hi j hlt2
      have := hsz i hi
      omega
    · have : j = i := by omega
      subst this
      exact hf
  refine ⟨?_, ?_, fun s hs => compare_offset_spec s x hs⟩
  · intro j hj hcont
    have hfj : compare_offset (layout.getD j default) x = .eq :=
      ((compare_offset_spec _ x (hsz j hj)).1).mpr hcont
    obtain ⟨i, hi⟩ := bsGo_complete
      (fun k => compare_offset (layout.getD k default) x) layout.length hgt hlt
      layout.length 0 layout.length j (by omega) (le_refl _) (Nat.zero_le j) hj hfj
    obtain ⟨hfi, _, hilt⟩ := bsGo_some
      (fun k => compare_offset (layout.getD k default) x)
      layout.length 0 layout.length i (by omega) hi
    have hconti := ((compare_offset_spec _ x (hsz i hilt)).1).mp hfi
    have hij : i = j := by
      unfold containsOff at hcont hconti
      rcases Nat.lt_trichotomy i j with hc | hc | hc
      · have := hsort j hj i hc
        omega
      · exact hc
      · have := hsort i hilt j hc
        omega
    rw [← hij]
    unfold find_offset
    rw [hi]
    simpa using get?_eq_getD layout i hilt
  · intro hnone
    unfold find_offset
    cases hbs : binary_search_go
        (fun k => compare_offset (layout.getD k default) x) 0 layout.length with
    | none => rfl
    | some i =>
      obtain ⟨hfi, _, hilt⟩ := bsGo_some
        (fun k => compare_offset (layout.getD k default) x)
        layout.length 0 layout.length i (by omega) hbs
      have hconti := ((compare_offset_spec _ x (hsz i hilt)).1).mp hfi
      exact absurd hconti (hnone i hilt)

/-- A concrete two-section layout with a gap between the sections. -/
def c10Layout : List Sec := [⟨0, 10⟩, ⟨20, 5⟩]

/-- Witness for C10: offset 3 belongs to the first section and is found;
offset 15 lies strictly between the two sections and yields none. -/
theorem c10_find_offset_witness :
    SortedDisjoint c10Layout ∧
    containsOff (c10Layout.getD 0 default) 3 ∧
    find_offset c10Layout 3 = some (c10Layout.getD 0 default) ∧
    (∀ j, j < c10Layout.length → ¬ containsOff (c10Layout.getD j default) 15) ∧
    find_offset c10Layout 15 = none :=
  ⟨by decide, by decide,
   (c10_find_offset c10Layout 3 (by decide)).1 0 (by decide) (by decide),
   by decide,
   (c10_find_offset c10Layout 15 (by decide)).2.1 (by decide)⟩

/-! ## Directory iteration under the data-model invariants (C6) -/

theorem isDirAt_lt_length {σ : Type} (entries : List (Entry σ)) (i : Nat)
    (h : isDirAt entries i = true) : i < entries.length := by
  unfold isDirAt at h
  by_cases hl : i < entries.length
  · exact hl
  · rw [List.get?_eq_none.mpr (by omega)] at h
    simp at h

theorem range'_split (a m n : Nat) :
    List.range' a (m + n) = List.range' a m ++ List.range' (a + m) n := by
  induction m generalizing a with
  | zero => simp
  | succ m ih =>
    have h1 : m + 1 + n = (m + n) + 1 := by omega
    rw [h1]
    show a :: List.range' (a + 1) (m + n) = (a :: List.range' (a + 1) m) ++ _
    rw [ih (a + 1)]
    have h2 : a + 1 + m = a + (m + 1) := by omega
    rw [h2]
    rfl

instance {σ : Type} [DecidableEq σ] (entries : List (Entry σ)) :
    Decidable (WellFormed entries) := by
  unfold WellFormed
  infer_instance

/-- Core induction for C6: starting from any cursor `c` inside the directory
`d`'s range that is not inside any already-skipped child subtree, the
iterator yields exactly the positions in `[c, next_index)` whose
`directory_index` is `d`, in increasing order, and the subtree sizes of the
yielded positions tile the remaining window exactly. -/
theorem dirIterAux_spec {σ : Type} (entries : List (Entry σ))
    (hwf : WellFormed entries) (d : Nat) (hd : isDirAt entries d = true) :
    ∀ (fuel c : Nat),
      d < c → c ≤ nextAt entries d →
      (∀ q, q < entries.length → isDirAt entries q = true → d < q → q < c →
        nextAt entries q ≤ c) →
      nextAt entries d - c < fuel →
      dirIterAux entries (nextAt entries d) fuel c =
        some ((List.range' c (nextAt entries d - c)).filter
          (fun i => decide (dirIdxAt entries i = some d))) ∧
      (((List.range' c (nextAt entries d - c)).filter
          (fun i => decide (dirIdxAt entries i = some d))).map
        (subtreeSize entries)).sum = nextAt entries d - c := by
  obtain ⟨hroot, hrootnext, hrootidx, hidx, hdirs, hlam, hinner⟩ := hwf
  have hdlen : d < entries.length := isDirAt_lt_length entries d hd
  have hnextd := hdirs d hdlen hd
  intro fuel
  induction fuel with
  | zero => intro c h1 h2 hinv h4; omega
  | succ fuel ih =>
    intro c h1 h2 hinv h4
    by_cases hc : c < nextAt entries d
    case neg =>
      have hceq : nextAt entries d - c = 0 := by omega
      rw [dirIterAux, if_neg hc, hceq]
      exact ⟨rfl, rfl⟩
    case pos =>
      have hclen : c < entries.length := by omega
      have hdc : dirIdxAt entries c = some d := by
        obtain ⟨p, hplen, hdip, hpdir, hpi, hinp, hmax⟩ := hinner c hclen (by omega)
        have hdp : d ≤ p := hmax d hdlen hd h1 hc
        have hpd : p ≤ d := by
          by_contra hcon
          push_neg at hcon
          have := hinv p hplen hpdir hcon hpi
          omega
        have hpde : p = d := by omega
        rw [hdip, hpde]
      have hPc : decide (dirIdxAt entries c = some d) = true := by
        rw [hdc]; simp
      cases he2 : entries.get? c with
      | none =>
        rw [List.get?_eq_none] at he2
        omega
      | some e =>
        cases e with
        | file inf fo sz =>
          have hinv2 : ∀ q, q < entries.length → isDirAt entries q = true →
              d < q → q < c + 1 → nextAt entries q ≤ c + 1 := by
            intro q hql hqd hdq hqc
            rcases Nat.lt_or_ge q c with hq | hq
            · have := hinv q hql hqd hdq hq
              omega
            · have hqe : q = c := by omega
              subst hqe
              unfold isDirAt at hqd
              rw [he2] at hqd
              simp at hqd
          obtain ⟨hre, hrs⟩ := ih (c + 1) (by omega) (by omega) hinv2 (by omega)
          have hrange : List.range' c (nextAt entries d - c) =
              c :: List.range' (c + 1) (nextAt entries d - (c + 1)) := by
            have h5 : nextAt entries d - c = (nextAt entries d - (c + 1)) + 1 := by
              omega
            rw [h5]
            rfl
          have hsub : subtreeSize entries c = 1 := by
            unfold subtreeSize
            rw [he2]
          constructor
          · rw [dirIterAux, if_pos hc, he2]
            simp only [hre]
            rw [hrange]
            simp only [List.filter_cons, hPc, if_true]
          · rw [hrange]
            simp only [List.filter_cons, hPc, if_true, List.map_cons, List.sum_cons]
            rw [hsub, hrs]
            omega
        | directory inf pi nx fc =>
          have hcdir : isDirAt entries c = true := by
            unfold isDirAt
            rw [he2]
          have hnxc : nextAt entries c = nx := by
            unfold nextAt
            rw [he2]
          have hcnx : c < nx := by
            have := (hdirs c hclen hcdir).1
            omega
          have hnxN : nx ≤ nextAt entries d := by
            have := hlam d hdlen hd c hclen hcdir h1 hc
            omega
          have hinv2 : ∀ q, q < entries.length → isDirAt entries q = true →
              d < q → q < nx → nextAt entries q ≤ nx := by
            intro q hql hqd hdq hqnx
            rcases Nat.lt_trichotomy q c with hq | hq | hq
            · have := hinv q hql hqd hdq hq
              omega
            · subst hq
              omega
            · have := hlam c hclen hcdir q hql hqd hq (by omega)
              omega
          have hgap : ∀ i, c < i → i < nx →
              decide (dirIdxAt entries i = some d) = false := by
            intro i hci hinx
            have hil : i < entries.length := by omega
            obtain ⟨p, hplen, hdip, hpdir, hpi, hinp, hmax⟩ :=
              hinner i hil (by omega)
            have hcp : c ≤ p := hmax c hclen hcdir hci (by omega)
            rw [hdip]
            simp only [decide_eq_false_iff_not, Option.some.injEq]
            omega
          have hcp' : c + (nx - c) = nx := by omega
          obtain ⟨hre, hrs⟩ := ih nx (by omega) hnxN hinv2 (by omega)
          have hrange : List.range' c (nextAt entries d - c) =
              c :: (List.range' (c + 1) (nx - (c + 1)) ++
                List.range' nx (nextAt entries d - nx)) := by
            have h5 : nextAt entries d - c =
                ((nx - (c + 1)) + (nextAt entries d - nx)) + 1 := by omega
            rw [h5]
            show c :: List.range' (c + 1) ((nx - (c + 1)) + (nextAt entries d - nx)) = _
            rw [range'_split (c + 1) (nx - (c + 1)) (nextAt entries d - nx)]
            have h6 : c + 1 + (nx - (c + 1)) = nx := by omega
            rw [h6]
          have hgapnil : (List.range' (c + 1) (nx - (c + 1))).filter
              (fun i => decide (dirIdxAt entries i = some d)) = [] := by
            rw [List.filter_eq_nil_iff]
            intro i hi
            rw [List.mem_range'_1] at hi
            have := hgap i (by omega) (by omega)
            simp [this]
          have hsub : subtreeSize entries c = nx - c := by
            unfold subtreeSize
            rw [he2]
          have hfiltershape :
              (List.range' c (nextAt entries d - c)).filter
                (fun i => decide (dirIdxAt entries i = some d)) =
              c :: (List.range' nx (nextAt entries d - nx)).filter
                (fun i => decide (dirIdxAt entries i = some d)) := by
            rw [hrange]
            simp only [List.filter_cons, hPc, if_true, List.filter_append, hgapnil,
              List.nil_append]
          constructor
          · rw [dirIterAux, if_pos hc, he2]
            simp only [hcp', hre]
            rw [hfiltershape]
          · rw [hfiltershape, List.map_cons, List.sum_cons, hsub, hrs]
            omega

/-- C6: under the data-model invariants, `iter_contents` on any directory
terminates and yields exactly the positions of its immediate children (the
entries whose `directory_index` names it), in increasing index order, and
the children's subtree sizes sum to `next_index - index - 1`. -/
theorem c6_iter_contents {σ : Type} (entries : List (Entry σ))
    (hwf : WellFormed entries) (d : Nat) (hd : isDirAt entries d = true) :
    iter_contents entries d (nextAt entries d) =
      some ((List.range entries.length).filter
        (fun i => decide (dirIdxAt entries i = some d))) ∧
    (((List.range entries.length).filter
        (fun i => decide (dirIdxAt entries i = some d))).map
      (subtreeSize entries)).sum = nextAt entries d - d - 1 := by
  have hdlen : d < entries.length := isDirAt_lt_length entries d hd
  have hwf2 := hwf
  obtain ⟨hroot, hrootnext, hrootidx, hidx, hdirs, hlam, hinner⟩ := hwf2
  have hnextd := hdirs d hdlen hd
  obtain ⟨heq, hsum⟩ := dirIterAux_spec entries hwf d hd (entries.length + 1)
    (d + 1) (by omega) (by omega)
    (by intro q _ _ hq1 hq2; omega) (by omega)
  have hconv : (List.range entries.length).filter
      (fun i => decide (dirIdxAt entries i = some d)) =
      (List.range' (d + 1) (nextAt entries d - (d + 1))).filter
      (fun i => decide (dirIdxAt entries i = some d)) := by
    have hlen : entries.length =
        (d + 1) + ((nextAt entries d - (d + 1)) +
          (entries.length - nextAt entries d)) := by omega
    rw [List.range_eq_range']
    rw [hlen, range'_split 0 (d + 1)
      ((nextAt entries d - (d + 1)) + (entries.length - nextAt entries d))]
    have h6 : 0 + (d + 1) = d + 1 := by omega
    rw [h6, range'_split (d + 1) (nextAt entries d - (d + 1))
      (entries.length - nextAt entries d)]
    have h7 : d + 1 + (nextAt entries d - (d + 1)) = nextAt entries d := by omega
    rw [h7]
    rw [List.filter_append, List.filter_append]
    have hpre : (List.range' 0 (d + 1)).filter
        (fun i => decide (dirIdxAt entries i = some d)) = [] := by
      rw [List.filter_eq_nil_iff]
      intro i hi
      rw [List.mem_range'_1] at hi
      simp only [decide_eq_true_eq]
      intro hcon
      rcases Nat.eq_zero_or_pos i with hz | hz
      · subst hz
        rw [hrootidx] at hcon
        exact absurd hcon (by simp)
      · obtain ⟨p, hplen, hdip, hpdir, hpi, hinp, hmax⟩ :=
          hinner i (by omega) hz
        rw [hdip] at hcon
        injection hcon with hcon
        omega
    have hsuf : (List.range' (nextAt entries d)
        (entries.length - nextAt entries d)).filter
        (fun i => decide (dirIdxAt entries i = some d)) = [] := by
      rw [List.filter_eq_nil_iff]
      intro i hi
      rw [List.mem_range'_1] at hi
      simp only [decide_eq_true_eq]
      intro hcon
      have hiz : 0 < i := by omega
      obtain ⟨p, hplen, hdip, hpdir, hpi, hinp, hmax⟩ :=
        hinner i (by omega) hiz
      rw [hdip] at hcon
      injection hcon with hcon
      subst hcon
      omega
    rw [hpre, hsuf]
    simp
  constructor
  · unfold iter_contents
    rw [heq, hconv]
  · rw [hconv, hsum]
    omega

/-- A four-entry well-formed tree: root (range 0..4) containing the
subdirectory at 1 (whose subtree is 1..3, holding the file at 2) and the
file at 3. -/
def c6Entries : List (Entry Nat) :=
  [ .directory { index := 0, name := 0, filename_offset := 0,
                 directory_index := none, full_path := [] } 0 4 1,
    .directory { index := 1, name := 1, filename_offset := 0,
                 directory_index := some 0, full_path := [] } 0 3 1,
    .file { index := 2, name := 2, filename_offset := 4,
            directory_index := some 1, full_path := [] } 0 5,
    .file { index := 3, name := 3, filename_offset := 8,
            directory_index := some 0, full_path := [] } 0 7 ]

/-- Witness for C6 at the concrete tree, iterating the root. -/
theorem c6_iter_contents_witness :
    WellFormed c6Entries ∧ isDirAt c6Entries 0 = true ∧
    (iter_contents c6Entries 0 (nextAt c6Entries 0) =
      some ((List.range c6Entries.length).filter
        (fun i => decide (dirIdxAt c6Entries i = some 0))) ∧
    (((List.range c6Entries.length).filter
        (fun i => decide (dirIdxAt c6Entries i = some 0))).map
      (subtreeSize c6Entries)).sum = nextAt c6Entries 0 - 0 - 1) :=
  ⟨by decide, by decide, c6_iter_contents c6Entries (by decide) 0 (by decide)⟩

end Gcmod
